import Mathlib

/-!
# Verification of the `bstruct` declarative binary codec

A shallow embedding of `src/bstruct/__init__.py`: a declarative codec that
compiles a record declaration (a list of typed fields) into a flat packed
format and provides `encode` / `decode` / `decode_all` over byte buffers in a
caller-chosen byte order.

Modelling conventions:
* Python `bytes` values are `List Nat` (each entry intended `< 256`).
* Python `int` is `Int`; machine-width bounds are explicit (`2 ^ (8 * w)`).
* Python exceptions become an explicit error type `PyError`; `BstructError`
  is the library's own error class, the others are builtin Python exceptions.
* The `struct` module's `pack` / `unpack` / `iter_unpack` for the format codes
  actually emitted by the library (`?`, `B H I Q`, `b h i q`, `Ns`) are
  modelled by `structPack` / `structUnpack`, including silent truncation and
  zero-padding of `Ns` arguments and the exact-arity requirement of `pack`.
* Python `Decimal` values are modelled as exact rationals together with the
  default decimal context's arithmetic: multiplication and division round
  their exact rational result to 28 significant digits, half-even
  (`round28`), which is what CPython's `decimal` module does.
* Python `str` values are lists of unicode code points; `str.encode("utf-8")`
  and `bytes.decode("utf-8")` are modelled by `utf8Encode` / `utf8Decode`.
-/

deriving instance DecidableEq for Except

set_option maxRecDepth 8000

namespace BStruct

/-- Computation rule for `Except` bind on a success. -/
@[simp] theorem except_bind_ok {ε α β : Type _} (a : α) (f : α → Except ε β) :
    (Except.ok a >>= f) = f a := rfl

/-- Computation rule for `Except` bind on an error. -/
@[simp] theorem except_bind_error {ε α β : Type _} (e : ε) (f : α → Except ε β) :
    ((Except.error e : Except ε α) >>= f) = Except.error e := rfl

/-- Computation rule for `Except` pure. -/
@[simp] theorem except_pure_def {ε α : Type _} (a : α) :
    (pure a : Except ε α) = Except.ok a := rfl

/-- The per-call byte order (`ByteOrder = Literal["big", "little"]`). -/
inductive PyByteOrder where
  | little
  | big
deriving DecidableEq, Repr

/-- Little-endian byte list (length `w`) of a natural number. -/
def natToLE : Nat → Nat → List Nat
  | 0, _ => []
  | w + 1, n => n % 256 :: natToLE w (n / 256)

/-- Natural number denoted by a little-endian byte list. -/
def leToNat : List Nat → Nat
  | [] => 0
  | b :: bs => b + 256 * leToNat bs

/-- Byte layout for a byte order: `int.to_bytes`/`from_bytes` and the packed
integer codes emit little-endian bytes as-is and reverse them for big-endian. -/
def orderBytes : PyByteOrder → List Nat → List Nat
  | .little, bs => bs
  | .big, bs => bs.reverse

/-- Python exceptions relevant to the library, plus `BstructError` itself.
`otherError` stands for exceptions (e.g. `AttributeError`) raised only on
inputs outside the declared field types. -/
inductive PyError where
  | bstructError
  | overflowError
  | valueError
  | stopIteration
  | otherError
deriving DecidableEq, Repr

/-- `int.to_bytes(w, byteorder, signed)`: `OverflowError` when the value does
not fit in `w` bytes for the given signedness. -/
def intToBytes (w : Nat) (bo : PyByteOrder) (signed : Bool) (v : Int) :
    Except PyError (List Nat) :=
  if signed then
    if -(2 ^ (8 * w - 1)) ≤ v ∧ v < 2 ^ (8 * w - 1) then
      .ok (orderBytes bo (natToLE w (v % (2 ^ (8 * w) : Int)).toNat))
    else .error .overflowError
  else
    if 0 ≤ v ∧ v < 2 ^ (8 * w) then
      .ok (orderBytes bo (natToLE w v.toNat))
    else .error .overflowError

/-- `int.from_bytes(bs, byteorder, signed)`. -/
def intFromBytes (bo : PyByteOrder) (signed : Bool) (bs : List Nat) : Int :=
  if signed ∧ 2 ^ (8 * bs.length - 1) ≤ leToNat (orderBytes bo bs) ∧ 0 < bs.length then
    (leToNat (orderBytes bo bs) : Int) - 2 ^ (8 * bs.length)
  else leToNat (orderBytes bo bs)

/-- One code of the native packer's format language, as used by the library:
`?` (`fBool`), the fixed-width integer codes `B/H/I/Q` (`fUInt w`) and
`b/h/i/q` (`fSInt w`) with `w` the byte width, and `Ns` (`fBytes n`). -/
inductive FmtCode where
  | fBool
  | fUInt (w : Nat)
  | fSInt (w : Nat)
  | fBytes (n : Nat)
deriving DecidableEq, Repr

/-- Byte size of one format code. -/
def codeSize : FmtCode → Nat
  | .fBool => 1
  | .fUInt w => w
  | .fSInt w => w
  | .fBytes n => n

/-- Total byte size of a format (`struct.Struct(format).size`; the `<`/`>`
prefix disables all alignment padding, so it is the plain sum). -/
def fmtSize (fmt : List FmtCode) : Nat := (fmt.map codeSize).sum

/-- A native attribute as handed to / produced by the packer
(`Attribute = Union[bool, bytes, int]`); `aother` stands for any other Python
object smuggled into the attribute list (it is never produced by `unpack`). -/
inductive Attr where
  | abool (b : Bool)
  | aint (n : Int)
  | abytes (bs : List Nat)
  | aother
deriving DecidableEq, Repr

/-- Pack a single attribute into one format code's slot.  `none` is a
`struct.error`: out-of-range integers and arguments of the wrong type.
`Ns` truncates long byte strings and zero-fills short ones, and ignores the
byte order. -/
def packOne (bo : PyByteOrder) : FmtCode → Attr → Option (List Nat)
  | .fBool, .abool b => some [if b then 1 else 0]
  | .fBool, .aint n => some [if n ≠ 0 then 1 else 0]
  | .fBool, .abytes bs => some [if bs ≠ [] then 1 else 0]
  | .fBool, .aother => none
  | .fUInt w, .aint n =>
      if 0 ≤ n ∧ n < 2 ^ (8 * w) then some (orderBytes bo (natToLE w n.toNat))
      else none
  | .fUInt w, .abool b =>
      some (orderBytes bo (natToLE w (if b then 1 else 0)))
  | .fUInt _, _ => none
  | .fSInt w, .aint n =>
      if -(2 ^ (8 * w - 1)) ≤ n ∧ n < 2 ^ (8 * w - 1) then
        some (orderBytes bo (natToLE w (n % (2 ^ (8 * w) : Int)).toNat))
      else none
  | .fSInt w, .abool b =>
      some (orderBytes bo (natToLE w (if b then 1 else 0)))
  | .fSInt _, _ => none
  | .fBytes n, .abytes bs => some (bs.take n ++ List.replicate (n - bs.length) 0)
  | .fBytes _, _ => none

/-- `struct.pack`: exactly one attribute per format code, concatenated slots;
any arity mismatch or per-slot failure is a `struct.error` (`none`). -/
def structPack (bo : PyByteOrder) : List FmtCode → List Attr → Option (List Nat)
  | [], [] => some []
  | c :: cs, a :: as => do
      let piece ← packOne bo c a
      let rest ← structPack bo cs as
      pure (piece ++ rest)
  | [], _ :: _ => none
  | _ :: _, [] => none

/-- Unpack one slot's bytes into an attribute (`?` produces a `bool`, integer
codes produce `int`s, `Ns` produces the raw bytes). -/
def unpackOne (bo : PyByteOrder) : FmtCode → List Nat → Attr
  | .fBool, bs => .abool (leToNat bs ≠ 0)
  | .fUInt _, bs => .aint (leToNat (orderBytes bo bs))
  | .fSInt _, bs => .aint (intFromBytes bo true bs)
  | .fBytes _, bs => .abytes bs

/-- Split a buffer along a format, one attribute per code. -/
def unpackPieces (bo : PyByteOrder) : List FmtCode → List Nat → List Attr
  | [], _ => []
  | c :: cs, data =>
      unpackOne bo c (data.take (codeSize c)) :: unpackPieces bo cs (data.drop (codeSize c))

/-- `struct.unpack`: requires the buffer length to equal the format size
exactly; a mismatch is a `struct.error` (`none`). -/
def structUnpack (bo : PyByteOrder) (fmt : List FmtCode) (data : List Nat) :
    Option (List Attr) :=
  if data.length = fmtSize fmt then some (unpackPieces bo fmt data) else none

/-! ## Python `decimal` arithmetic

`Decimal` values are exact rationals; the default context rounds arithmetic
results to `prec = 28` significant digits with `ROUND_HALF_EVEN`. -/

/-- Decimal digit count of a natural number, with enough structural fuel for
every number appearing in a 256-bit codec. -/
def digCountAux : Nat → Nat → Nat
  | 0, _ => 0
  | fuel + 1, n => if n = 0 then 0 else digCountAux fuel (n / 10) + 1

/-- Decimal digit count (`digCount 0 = 0`). -/
def digCount (n : Nat) : Nat := digCountAux 400 n

/-- For a positive fraction `n / d`, the exponent `e` with
`10 ^ e ≤ n / d < 10 ^ (e + 1)`, computed from digit counts. -/
def fracExp (n d : Nat) : Int :=
  let c : Int := (digCount n : Int) - (digCount d : Int)
  if n * 10 ^ (-c).toNat ≥ d * 10 ^ c.toNat then c else c - 1

/-- Round the positive fraction `bign / bigd` to the nearest integer, ties to
even. -/
def halfEvenNat (bign bigd : Nat) : Nat :=
  let f := bign / bigd
  let r := bign % bigd
  if 2 * r < bigd then f
  else if bigd < 2 * r then f + 1
  else if f % 2 = 0 then f else f + 1

/-- Round the fraction `num / den` (with `den ≠ 0`) to 28 significant digits,
half-even: the default decimal context applied to an exact rational result. -/
def roundFrac (num : Int) (den : Nat) : ℚ :=
  if num = 0 then 0
  else
    let n := num.natAbs
    let s : Int := 27 - fracExp n den
    let bign := n * 10 ^ s.toNat
    let bigd := den * 10 ^ (-s).toNat
    let c := halfEvenNat bign bigd
    let sgn : Int := if num < 0 then -1 else 1
    if 0 ≤ s then mkRat (sgn * c) (10 ^ s.toNat)
    else mkRat (sgn * (c * 10 ^ (-s).toNat)) 1

/-- Round a rational to 28 significant digits, half-even. -/
def round28 (q : ℚ) : ℚ := roundFrac q.num q.den

/-- `Decimal` multiplication under the default context: the exact product,
rounded to 28 significant digits. -/
def decMul (a b : ℚ) : ℚ := roundFrac (a.num * b.num) (a.den * b.den)

/-- `Decimal` division under the default context: the exact quotient, rounded
to 28 significant digits. -/
def decDiv (a b : ℚ) : ℚ :=
  if b.num < 0 then roundFrac (-(a.num * b.den)) (a.den * b.num.natAbs)
  else roundFrac (a.num * b.den) (a.den * b.num.natAbs)

/-- `int(d)` for a `Decimal`: truncation toward zero. -/
def truncQ (q : ℚ) : Int :=
  if 0 ≤ q.num then (q.num.toNat / q.den : Nat)
  else -((q.num.natAbs / q.den : Nat) : Int)

/-! ## UTF-8 -/

/-- UTF-8 encoding of one unicode scalar value (`str.encode("utf-8")` encodes
code point by code point; surrogates are rejected before this is reached). -/
def utf8EncodeChar (c : Nat) : List Nat :=
  if c < 0x80 then [c]
  else if c < 0x800 then [0xC0 + c / 64, 0x80 + c % 64]
  else if c < 0x10000 then
    [0xE0 + c / 4096, 0x80 + c / 64 % 64, 0x80 + c % 64]
  else
    [0xF0 + c / 0x40000, 0x80 + c / 4096 % 64, 0x80 + c / 64 % 64, 0x80 + c % 64]

/-- UTF-8 encoding of a string (as its list of code points). -/
def utf8Encode (cs : List Nat) : List Nat := (cs.map utf8EncodeChar).flatten

/-- A code point Python's UTF-8 encoder accepts: a unicode scalar value. -/
def isScalar (c : Nat) : Bool := decide (c < 0x110000 ∧ ¬(0xD800 ≤ c ∧ c < 0xE000))

/-- Parse one UTF-8 sequence from the front of a strict decode
(`bytes.decode("utf-8")`): rejects truncated sequences, stray continuation
bytes, overlong forms, surrogates and values beyond `U+10FFFF`.  Returns the
code point and the remaining bytes. -/
def utf8DecodeChar? : List Nat → Option (Nat × List Nat)
  | [] => none
  | b :: bs =>
    if b < 0x80 then some (b, bs)
    else if b < 0xC2 then none
    else if b < 0xE0 then
      match bs with
      | b1 :: bs' =>
        if 0x80 ≤ b1 ∧ b1 < 0xC0 then some ((b - 0xC0) * 64 + (b1 - 0x80), bs')
        else none
      | [] => none
    else if b < 0xF0 then
      match bs with
      | b1 :: b2 :: bs' =>
        if 0x80 ≤ b1 ∧ b1 < 0xC0 ∧ 0x80 ≤ b2 ∧ b2 < 0xC0 then
          let c := (b - 0xE0) * 4096 + (b1 - 0x80) * 64 + (b2 - 0x80)
          if c < 0x800 ∨ (0xD800 ≤ c ∧ c < 0xE000) then none
          else some (c, bs')
        else none
      | _ => none
    else if b < 0xF5 then
      match bs with
      | b1 :: b2 :: b3 :: bs' =>
        if 0x80 ≤ b1 ∧ b1 < 0xC0 ∧ 0x80 ≤ b2 ∧ b2 < 0xC0 ∧ 0x80 ≤ b3 ∧ b3 < 0xC0 then
          let c := (b - 0xF0) * 0x40000 + (b1 - 0x80) * 4096 + (b2 - 0x80) * 64 + (b3 - 0x80)
          if c < 0x10000 ∨ 0x110000 ≤ c then none
          else some (c, bs')
        else none
      | _ => none
    else none

/-- The single-sequence parser consumes at least one byte. -/
theorem utf8DecodeChar?_length (l : List Nat) (c : Nat) (rest : List Nat)
    (h : utf8DecodeChar? l = some (c, rest)) : rest.length < l.length := by
  match l with
  | [] => simp [utf8DecodeChar?] at h
  | b :: bs =>
      simp only [utf8DecodeChar?] at h
      split_ifs at h <;> (try split at h) <;> (try split_ifs at h) <;>
        (try simp_all) <;> omega

/-- Strict UTF-8 decoding: parse sequences until the buffer is exhausted. -/
def utf8Decode (l : List Nat) : Option (List Nat) :=
  if hne : l = [] then some []
  else
    match hm : utf8DecodeChar? l with
    | some cr =>
        have : cr.2.length < l.length := utf8DecodeChar?_length l cr.1 cr.2 (by
          rw [hm])
        (utf8Decode cr.2).map (cr.1 :: ·)
    | none => none
termination_by l.length

/-- `bytes.rstrip(b"\x00")`: drop trailing zero bytes. -/
def rstripZeros (bs : List Nat) : List Nat :=
  (bs.reverse.dropWhile (· = 0)).reverse

/-- Drop trailing NUL code points of a string. -/
def rstripNulCP (cs : List Nat) : List Nat :=
  (cs.reverse.dropWhile (· = 0)).reverse

/-! ## The schema language

A `Struct` subclass is, for the semantics of encode/decode, its list of field
types in declaration order; `_resolve_encoding` maps each field type to a
`FieldEncoding` (format fragment + encoder + decoder), which we embed as the
functions `fmtOfF`, `encF` and `decF` below. -/

/-- The integer encoding underlying an `IntEnum` field (`Encodings.u8` …
`Encodings.i256`): a native fixed-width code or a 16/32-byte custom codec. -/
inductive IntEnc where
  | native (signed : Bool) (w : Nat)
  | big (signed : Bool) (n : Nat)
deriving DecidableEq, Repr

/-- The field types expressible in a `Struct` declaration. `tUInt`/`tSInt`
with `w ∈ {1,2,4,8}` are `u8..u64`/`i8..i64`; `tUBig`/`tSBig` with
`n ∈ {16,32}` are `u128/u256`/`i128/i256`; `tBytes` is `Bytes(n)`; `tStr` is
`String(n)`; `tEnum` lists the `IntEnum`'s member values. -/
inductive FieldTy where
  | tBool
  | tUInt (w : Nat)
  | tSInt (w : Nat)
  | tUBig (n : Nat)
  | tSBig (n : Nat)
  | tBytes (n : Nat)
  | tStr (n : Nat)
  | tI80F48
  | tEnum (members : List Int) (under : IntEnc)
  | tArray (inner : FieldTy) (len : Nat)
  | tStruct (fields : List FieldTy)

/-- A Python value held in a field. Strings carry their code points, Decimal
values their exact rational value, enum members their integer value. -/
inductive Value where
  | vBool (b : Bool)
  | vInt (n : Int)
  | vBytes (bs : List Nat)
  | vStr (cs : List Nat)
  | vDec (q : ℚ)
  | vList (vs : List Value)
  | vStruct (vs : List Value)

/-- How a field value appears in the native attribute list (`_raw_encode`
appends the Python object itself). -/
def toAttr : Value → Attr
  | .vBool b => .abool b
  | .vInt n => .aint n
  | .vBytes bs => .abytes bs
  | _ => .aother

/-- The value produced by `_raw_decode` for an attribute coming out of the
packer (the packer never produces `aother`; that case is arbitrary). -/
def attrToValue : Attr → Value
  | .abool b => .vBool b
  | .aint n => .vInt n
  | .abytes bs => .vBytes bs
  | .aother => .vBool true

/-- A value accepted by `int.to_bytes` (a Python `bool` is an `int`). -/
def valueInt? : Value → Option Int
  | .vInt n => some n
  | .vBool b => some (if b then 1 else 0)
  | _ => none

/-- `_raw_encode`: append the value itself to the attribute list. -/
def rawEncode (v : Value) (attrs : List Attr) : List Attr := attrs ++ [toAttr v]

/-- `_raw_decode`: `next(iterator)`. -/
def rawDecode : List Attr → Except PyError (Value × List Attr)
  | [] => .error .stopIteration
  | a :: rest => .ok (attrToValue a, rest)

/-- `_encode_uint128/256`, `_encode_int128/256`:
`value.to_bytes(n, byteorder, signed)` appended as one opaque slot; values of
a non-integer type raise (`otherError`). -/
def encodeBig (n : Nat) (signed : Bool) (bo : PyByteOrder) (v : Value)
    (attrs : List Attr) : Except PyError (List Attr) :=
  match valueInt? v with
  | some i => do
      let bs ← intToBytes n bo signed i
      .ok (attrs ++ [.abytes bs])
  | none => .error .otherError

/-- `_decode_uint` / `_decode_int`: `int.from_bytes` of the next attribute,
which is asserted to be a byte string. -/
def decodeBigInt (signed : Bool) (bo : PyByteOrder) :
    List Attr → Except PyError (Value × List Attr)
  | .abytes bs :: rest => .ok (.vInt (intFromBytes bo signed bs), rest)
  | [] => .error .stopIteration
  | _ :: _ => .error .otherError

/-- `_encode_str`: append `value.encode("utf-8")`; surrogates (and values of
a non-string type) raise. -/
def encodeStr (v : Value) (attrs : List Attr) : Except PyError (List Attr) :=
  match v with
  | .vStr cs =>
      if cs.all isScalar then .ok (attrs ++ [.abytes (utf8Encode cs)])
      else .error .otherError
  | _ => .error .otherError

/-- `_decode_str`: `value.rstrip(b"\x00").decode("utf-8")` on the next
attribute. -/
def decodeStr : List Attr → Except PyError (Value × List Attr)
  | .abytes bs :: rest =>
      match utf8Decode (rstripZeros bs) with
      | some cs => .ok (.vStr cs, rest)
      | none => .error .otherError
  | [] => .error .stopIteration
  | _ :: _ => .error .otherError

/-- `_encode_I80F48`: `int(value * I80F48_DIVISOR).to_bytes(16, byte_order,
signed=True)` appended as one opaque slot (only `Decimal` values are
modelled). -/
def encodeI80F48 (bo : PyByteOrder) (v : Value) (attrs : List Attr) :
    Except PyError (List Attr) :=
  match v with
  | .vDec q => do
      let m := truncQ (decMul q (mkRat (2 ^ 48) 1))
      let bs ← intToBytes 16 bo true m
      .ok (attrs ++ [.abytes bs])
  | _ => .error .otherError

/-- `_decode_I80F48`: signed `int.from_bytes` of the next attribute, divided
by `I80F48_DIVISOR` in `Decimal` arithmetic. -/
def decodeI80F48 (bo : PyByteOrder) : List Attr → Except PyError (Value × List Attr)
  | .abytes bs :: rest =>
      .ok (.vDec (decDiv (mkRat (intFromBytes bo true bs) 1) (mkRat (2 ^ 48) 1)), rest)
  | [] => .error .stopIteration
  | _ :: _ => .error .otherError

/-- The enum decoder from `_resolve_int_enum_encoding`: the underlying
integer decode, then the `IntEnum` constructor, which raises `ValueError` on
a value that is not a member. -/
def decodeEnum (members : List Int) (u : IntEnc) (bo : PyByteOrder) :
    List Attr → Except PyError (Value × List Attr)
  | [] => .error .stopIteration
  | a :: rest =>
      match u, a with
      | .native _ _, .aint k =>
          if k ∈ members then .ok (.vInt k, rest) else .error .valueError
      | .native _ _, .abool b =>
          if (if b then 1 else 0) ∈ members then .ok (.vInt (if b then 1 else 0), rest)
          else .error .valueError
      | .native _ _, _ => .error .otherError
      | .big signed _, .abytes bs =>
          let k := intFromBytes bo signed bs
          if k ∈ members then .ok (.vInt k, rest) else .error .valueError
      | .big _ _, _ => .error .otherError

/-- Format code of an underlying integer encoding. -/
def intEncFmt : IntEnc → FmtCode
  | .native false w => .fUInt w
  | .native true w => .fSInt w
  | .big _ n => .fBytes n

/-- The function-identity test `inner_encode == _raw_encode` used by
`_resolve_array_encoding` to pick the bulk-append path: true exactly for the
encodings whose `encode` attribute is the `_raw_encode` function object
(native primitives, `Bytes`, and enums over a native integer encoding, whose
encoder is reused unchanged). -/
def isRawEnc : FieldTy → Bool
  | .tBool => true
  | .tUInt _ => true
  | .tSInt _ => true
  | .tBytes _ => true
  | .tEnum _ (.native _ _) => true
  | _ => false

/-- `_encode_native_list`: `attributes.extend(l)`. -/
def encodeNativeList (vs : List Value) (attrs : List Attr) : List Attr :=
  attrs ++ vs.map toAttr

/-- `format` of the encoding `_resolve_encoding` produces for a field type:
primitives contribute their table entry, an enum its underlying integer
code, an array its inner fragment repeated `length` times, and a nested
record its whole flattened format. -/
def fmtOfF : FieldTy → List FmtCode
  | .tBool => [.fBool]
  | .tUInt w => [.fUInt w]
  | .tSInt w => [.fSInt w]
  | .tUBig n => [.fBytes n]
  | .tSBig n => [.fBytes n]
  | .tBytes n => [.fBytes n]
  | .tStr n => [.fBytes n]
  | .tI80F48 => [.fBytes 16]
  | .tEnum _ u => [intEncFmt u]
  | .tArray inner len => (List.replicate len (fmtOfF inner)).flatten
  | .tStruct fields => (fields.attach.map (fun x => fmtOfF x.1)).flatten
decreasing_by
  · simp; omega
  · have := List.sizeOf_lt_of_mem x.2
    simp; omega

mutual

/-- The encoder `_resolve_encoding` produces for a field type, applied to one
field value: appends the field's native attributes to the sink
(`attributes`), or raises. -/
def encF : FieldTy → Value → PyByteOrder → List Attr → Except PyError (List Attr)
  | .tBool, v, _, attrs => .ok (rawEncode v attrs)
  | .tUInt _, v, _, attrs => .ok (rawEncode v attrs)
  | .tSInt _, v, _, attrs => .ok (rawEncode v attrs)
  | .tUBig n, v, bo, attrs => encodeBig n false bo v attrs
  | .tSBig n, v, bo, attrs => encodeBig n true bo v attrs
  | .tBytes _, v, _, attrs => .ok (rawEncode v attrs)
  | .tStr _, v, _, attrs => encodeStr v attrs
  | .tI80F48, v, bo, attrs => encodeI80F48 bo v attrs
  | .tEnum _ (.native _ _), v, _, attrs => .ok (rawEncode v attrs)
  | .tEnum _ (.big signed n), v, bo, attrs => encodeBig n signed bo v attrs
  | .tArray inner _, v, bo, attrs =>
      match v with
      | .vList vs =>
          if isRawEnc inner then .ok (encodeNativeList vs attrs)
          else encList inner vs bo attrs
      | _ => .error .otherError
  | .tStruct fields, v, bo, attrs =>
      match v with
      | .vStruct vs =>
          if vs.length = fields.length then encZip fields vs bo attrs
          else .error .otherError
      | _ => .error .otherError
termination_by t _ _ _ => (sizeOf t, 0)

/-- The general array encode path of `_resolve_array_encoding`: encode each
element individually, in sequence order. -/
def encList : FieldTy → List Value → PyByteOrder → List Attr → Except PyError (List Attr)
  | _, [], _, attrs => .ok attrs
  | t, v :: vs, bo, attrs => do
      let attrs' ← encF t v bo attrs
      encList t vs bo attrs'
termination_by t vs _ _ => (sizeOf t, vs.length + 1)

/-- The compiled record encoder built by `_derive`: apply each field's
encoder, in declaration order, to the corresponding field value. -/
def encZip : List FieldTy → List Value → PyByteOrder → List Attr → Except PyError (List Attr)
  | [], _, _, attrs => .ok attrs
  | _ :: _, [], _, attrs => .ok attrs
  | t :: ts, v :: vs, bo, attrs => do
      let attrs' ← encF t v bo attrs
      encZip ts vs bo attrs'
termination_by ts _ _ _ => (sizeOf ts, 0)

end

mutual

/-- The decoder `_resolve_encoding` produces for a field type: consume the
field's native attributes from the cursor and rebuild the field value. -/
def decF : FieldTy → List Attr → PyByteOrder → Except PyError (Value × List Attr)
  | .tBool, attrs, _ => rawDecode attrs
  | .tUInt _, attrs, _ => rawDecode attrs
  | .tSInt _, attrs, _ => rawDecode attrs
  | .tUBig _, attrs, bo => decodeBigInt false bo attrs
  | .tSBig _, attrs, bo => decodeBigInt true bo attrs
  | .tBytes _, attrs, _ => rawDecode attrs
  | .tStr _, attrs, _ => decodeStr attrs
  | .tI80F48, attrs, bo => decodeI80F48 bo attrs
  | .tEnum members u, attrs, bo => decodeEnum members u bo attrs
  | .tArray inner len, attrs, bo => do
      let (vs, rest) ← decList inner len attrs bo
      .ok (.vList vs, rest)
  | .tStruct fields, attrs, bo => do
      let (vs, rest) ← decZip fields attrs bo
      .ok (.vStruct vs, rest)
termination_by t _ _ => (sizeOf t, 0)

/-- The array decode path: invoke the inner decode exactly `length` times
against the shared cursor. -/
def decList : FieldTy → Nat → List Attr → PyByteOrder →
    Except PyError (List Value × List Attr)
  | _, 0, attrs, _ => .ok ([], attrs)
  | t, k + 1, attrs, bo => do
      let (v, rest) ← decF t attrs bo
      let (vs, rest') ← decList t k rest bo
      .ok (v :: vs, rest')
termination_by t k _ _ => (sizeOf t, k + 1)

/-- The compiled record decoder built by `_derive`: run each field's decoder
in order against the shared cursor and collect the field values. -/
def decZip : List FieldTy → List Attr → PyByteOrder →
    Except PyError (List Value × List Attr)
  | [], attrs, _ => .ok ([], attrs)
  | t :: ts, attrs, bo => do
      let (v, rest) ← decF t attrs bo
      let (vs, rest') ← decZip ts rest bo
      .ok (v :: vs, rest')
termination_by ts _ _ => (sizeOf ts, 0)

end

/-- Ranges accepted for an underlying integer encoding: the native packer's
range check, or the `int.to_bytes` range. -/
def inRangeIntEnc (u : IntEnc) (k : Int) : Bool :=
  match u with
  | .native false w => decide (0 ≤ k ∧ k < 2 ^ (8 * w))
  | .native true w => decide (0 < w ∧ -(2 ^ (8 * w - 1)) ≤ k ∧ k < 2 ^ (8 * w - 1))
  | .big false n => decide (0 ≤ k ∧ k < 2 ^ (8 * n))
  | .big true n => decide (0 < n ∧ -(2 ^ (8 * n - 1)) ≤ k ∧ k < 2 ^ (8 * n - 1))

mutual

/-- A value valid for its field's declared encoding: the right Python type,
integers within the encoding's range, byte fields of exactly the declared
size, strings that fit their slot after UTF-8 encoding and do not end in NUL,
`Decimal` values that are exactly representable multiples of `2 ^ (-48)`
whose scaled integer and value survive the decimal context's 28-digit
rounding unchanged, enum values that are members, arrays of exactly the
declared length with valid elements, and nested records valid fieldwise. -/
def validF : FieldTy → Value → Bool
  | .tBool, .vBool _ => true
  | .tUInt w, .vInt n => decide (0 ≤ n ∧ n < 2 ^ (8 * w))
  | .tSInt w, .vInt n => decide (0 < w ∧ -(2 ^ (8 * w - 1)) ≤ n ∧ n < 2 ^ (8 * w - 1))
  | .tUBig m, .vInt n => decide (0 ≤ n ∧ n < 2 ^ (8 * m))
  | .tSBig m, .vInt n => decide (0 < m ∧ -(2 ^ (8 * m - 1)) ≤ n ∧ n < 2 ^ (8 * m - 1))
  | .tBytes m, .vBytes bs => decide (bs.length = m) && bs.all (· < 256)
  | .tStr m, .vStr cs =>
      cs.all isScalar && decide ((utf8Encode cs).length ≤ m)
        && decide (cs.getLastD 1 ≠ 0)
  | .tI80F48, .vDec q =>
      decide (-(2 ^ 127) ≤ truncQ (decMul q (mkRat (2 ^ 48) 1))
          ∧ truncQ (decMul q (mkRat (2 ^ 48) 1)) < 2 ^ 127)
        && decide (decDiv (mkRat (truncQ (decMul q (mkRat (2 ^ 48) 1))) 1)
            (mkRat (2 ^ 48) 1) = q)
  | .tEnum members u, .vInt k => decide (k ∈ members) && inRangeIntEnc u k
  | .tArray inner len, .vList vs => decide (vs.length = len) && validList inner vs
  | .tStruct fields, .vStruct vs => validZip fields vs
  | _, _ => false
termination_by t _ => (sizeOf t, 0)

/-- All elements of an array value valid for the inner encoding. -/
def validList : FieldTy → List Value → Bool
  | _, [] => true
  | t, v :: vs => validF t v && validList t vs
termination_by t vs => (sizeOf t, vs.length + 1)

/-- All fields of a record value valid, with matching arity. -/
def validZip : List FieldTy → List Value → Bool
  | [], [] => true
  | t :: ts, v :: vs => validF t v && validZip ts vs
  | _, _ => false
termination_by ts _ => (sizeOf ts, 0)

end

/-! ## The public API -/

/-- The flat format compiled by `_derive` for a record with the given field
types (the concatenation of the per-field fragments). -/
def structFormat (S : List FieldTy) : List FmtCode := fmtOfF (.tStruct S)

/-- `bstruct.get_size`: the byte size of the serialized form. -/
def byteSize (S : List FieldTy) : Nat := fmtSize (structFormat S)

/-- `bstruct.encode(value, byteorder)`: run the compiled encoder into an
empty sink (exceptions it raises propagate unwrapped), then pack; only the
packer's `struct.error` is wrapped into `BstructError`. -/
def encode (S : List FieldTy) (vs : List Value) (bo : PyByteOrder) :
    Except PyError (List Nat) := do
  let attrs ← encF (.tStruct S) (.vStruct vs) bo []
  match structPack bo (structFormat S) attrs with
  | some data => .ok data
  | none => .error .bstructError

/-- `bstruct.decode(cls, data, byteorder)`: unpack (wrapping `struct.error`
into `BstructError`), then run the compiled decoder over the attribute
cursor (its own exceptions, e.g. an enum `ValueError`, propagate unwrapped).
-/
def decode (S : List FieldTy) (data : List Nat) (bo : PyByteOrder) :
    Except PyError Value :=
  match structUnpack bo (structFormat S) data with
  | none => .error .bstructError
  | some attrs =>
      match decF (.tStruct S) attrs bo with
      | .ok (v, _) => .ok v
      | .error e => .error e

/-- Decode `k` back-to-back records (the loop over `iter_unpack`): the values
yielded before any error, and the error terminating the iteration, if any. -/
def decodeAllGo (S : List FieldTy) (bo : PyByteOrder) :
    Nat → List Nat → List Value × Option PyError
  | 0, _ => ([], none)
  | k + 1, data =>
      match decF (.tStruct S) (unpackPieces bo (structFormat S) (data.take (byteSize S))) bo with
      | .error e => ([], some e)
      | .ok (v, _) =>
          let r := decodeAllGo S bo k (data.drop (byteSize S))
          (v :: r.1, r.2)

/-- `bstruct.decode_all(cls, data, byteorder)` as consumed by `list(...)`:
`iter_unpack` raises `struct.error` (wrapped into `BstructError`) for a
zero-size format or a buffer length that is not a multiple of the record
size; otherwise records are decoded back-to-back, stopping at the first
decoder error. The result is the pair of the yielded values and the
terminating error, if any. -/
def decodeAll (S : List FieldTy) (data : List Nat) (bo : PyByteOrder) :
    List Value × Option PyError :=
  if byteSize S = 0 then ([], some .bstructError)
  else if data.length % byteSize S ≠ 0 then ([], some .bstructError)
  else decodeAllGo S bo (data.length / byteSize S) data

/-! ## Structural helper lemmas -/

theorem fmtOfF_tStruct (fs : List FieldTy) :
    fmtOfF (.tStruct fs) = (fs.map fmtOfF).flatten := by
  rw [fmtOfF]
  congr 1
  exact List.attach_map_coe fs fmtOfF

theorem fmtOfF_tArray (inner : FieldTy) (len : Nat) :
    fmtOfF (.tArray inner len) = (List.replicate len (fmtOfF inner)).flatten := by
  rw [fmtOfF]

theorem validZip_length (fs : List FieldTy) (vs : List Value)
    (h : validZip fs vs = true) : vs.length = fs.length := by
  induction fs generalizing vs with
  | nil => cases vs with
      | nil => rfl
      | cons v vs => simp [validZip] at h
  | cons t ts ih =>
      cases vs with
      | nil => simp [validZip] at h
      | cons v vs =>
          rw [validZip, Bool.and_eq_true] at h
          simp [ih vs h.2]

/-- For the encodings whose `encode` is the `_raw_encode` function object,
the compiled field encoder is exactly `_raw_encode`. -/
theorem encF_raw (t : FieldTy) (h : isRawEnc t = true) (v : Value)
    (bo : PyByteOrder) (attrs : List Attr) :
    encF t v bo attrs = .ok (rawEncode v attrs) := by
  cases t with
  | tBool => rw [encF]
  | tUInt w => rw [encF]
  | tSInt w => rw [encF]
  | tBytes n => rw [encF]
  | tEnum members u =>
      cases u with
      | native s w => rw [encF]
      | big s n => simp [isRawEnc] at h
  | tUBig n => simp [isRawEnc] at h
  | tSBig n => simp [isRawEnc] at h
  | tStr n => simp [isRawEnc] at h
  | tI80F48 => simp [isRawEnc] at h
  | tArray inner len => simp [isRawEnc] at h
  | tStruct fields => simp [isRawEnc] at h

/-- The general element-by-element array path, over a pass-through inner
encoding, appends exactly the elements themselves. -/
theorem encList_raw (t : FieldTy) (h : isRawEnc t = true) (vs : List Value)
    (bo : PyByteOrder) (attrs : List Attr) :
    encList t vs bo attrs = .ok (attrs ++ vs.map toAttr) := by
  induction vs generalizing attrs with
  | nil => simp [encList]
  | cons v vs ih =>
      rw [encList, encF_raw t h v bo attrs]
      simp only [except_bind_ok, ih, rawEncode]
      simp

/-- The array encoder equals the general element-by-element path whether or
not the bulk-append optimization is taken. -/
theorem encF_array_eq_encList (inner : FieldTy) (len : Nat) (vs : List Value)
    (bo : PyByteOrder) (attrs : List Attr) :
    encF (.tArray inner len) (.vList vs) bo attrs = encList inner vs bo attrs := by
  rw [encF]
  by_cases h : isRawEnc inner
  · rw [if_pos h, encList_raw inner h, encodeNativeList]
  · rw [if_neg h]

/-! ## Byte-level lemmas -/

theorem natToLE_length (w n : Nat) : (natToLE w n).length = w := by
  induction w generalizing n with
  | zero => rfl
  | succ w ih => simp [natToLE, ih]

theorem leToNat_natToLE (w n : Nat) (h : n < 2 ^ (8 * w)) :
    leToNat (natToLE w n) = n := by
  induction w generalizing n with
  | zero => simp [natToLE, leToNat]; omega
  | succ w ih =>
      have hdiv : n / 256 < 2 ^ (8 * w) := by
        have : 2 ^ (8 * (w + 1)) = 2 ^ (8 * w) * 256 := by ring
        omega
      simp [natToLE, leToNat, ih _ hdiv]
      omega

theorem orderBytes_orderBytes (bo : PyByteOrder) (bs : List Nat) :
    orderBytes bo (orderBytes bo bs) = bs := by
  cases bo <;> simp [orderBytes]

theorem orderBytes_length (bo : PyByteOrder) (bs : List Nat) :
    (orderBytes bo bs).length = bs.length := by
  cases bo <;> simp [orderBytes]

/-- Round trip of the unsigned byte serialization. -/
theorem intFromBytes_unsigned (bo : PyByteOrder) (w : Nat) (n : Int)
    (h0 : 0 ≤ n) (h1 : n < 2 ^ (8 * w)) :
    intFromBytes bo false (orderBytes bo (natToLE w n.toNat)) = n := by
  have castN : ((2 ^ (8 * w) : Nat) : Int) = 2 ^ (8 * w) := by push_cast; ring
  have hlt : n.toNat < 2 ^ (8 * w) := by omega
  simp [intFromBytes, orderBytes_orderBytes, leToNat_natToLE w _ hlt]
  omega

/-- Round trip of the signed (two's-complement) byte serialization. -/
theorem intFromBytes_signed (bo : PyByteOrder) (w : Nat) (n : Int) (hw : 0 < w)
    (h0 : -(2 ^ (8 * w - 1)) ≤ n) (h1 : n < 2 ^ (8 * w - 1)) :
    intFromBytes bo true (orderBytes bo (natToLE w (n % (2 ^ (8 * w) : Int)).toNat)) = n := by
  have castN : ((2 ^ (8 * w) : Nat) : Int) = 2 ^ (8 * w) := by push_cast; ring
  have castH : ((2 ^ (8 * w - 1) : Nat) : Int) = 2 ^ (8 * w - 1) := by push_cast; ring
  have hNH : (2 ^ (8 * w) : Nat) = 2 * 2 ^ (8 * w - 1) := by
    conv_lhs => rw [show 8 * w = (8 * w - 1) + 1 from by omega]
    rw [pow_succ]
    ring
  have hM : (0 : Int) < 2 ^ (8 * w) := by positivity
  have hm0 : 0 ≤ n % (2 ^ (8 * w) : Int) := Int.emod_nonneg n (by omega)
  have hmlt : n % (2 ^ (8 * w) : Int) < 2 ^ (8 * w) := Int.emod_lt_of_pos n hM
  have hmN : (n % (2 ^ (8 * w) : Int)).toNat < 2 ^ (8 * w) := by
    rw [← castN] at hmlt
    omega
  have key : n % (2 ^ (8 * w) : Int) = n ∨ n % (2 ^ (8 * w) : Int) = n + 2 ^ (8 * w) := by
    by_cases hn : 0 ≤ n
    · left
      refine Int.emod_eq_of_lt hn ?_
      rw [← castN]
      rw [← castH] at h1
      omega
    · right
      have h2 : (n + 2 ^ (8 * w) * 1) % (2 ^ (8 * w) : Int) = n % 2 ^ (8 * w) :=
        Int.add_mul_emod_self_left n (2 ^ (8 * w)) 1
      have h3 : (n + 2 ^ (8 * w)) % (2 ^ (8 * w) : Int) = n + 2 ^ (8 * w) := by
        refine Int.emod_eq_of_lt ?_ ?_
        · rw [← castN]
          rw [← castH] at h0
          omega
        · omega
      rw [mul_one] at h2
      rw [← h2, h3]
  simp only [intFromBytes, orderBytes_orderBytes, orderBytes_length, natToLE_length,
    leToNat_natToLE w _ hmN, true_and]
  rw [← castN] at key hmlt hm0 ⊢
  rw [← castH] at h0 h1
  split
  · omega
  · omega

/-! ## Packer lemmas -/

theorem fmtSize_append (f1 f2 : List FmtCode) :
    fmtSize (f1 ++ f2) = fmtSize f1 + fmtSize f2 := by
  simp [fmtSize]

theorem fmtSize_cons (c : FmtCode) (cs : List FmtCode) :
    fmtSize (c :: cs) = codeSize c + fmtSize cs := by
  simp [fmtSize]

/-- `pack` with mismatched arity always fails (`struct.error`). -/
theorem structPack_length_ne (bo : PyByteOrder) (fmt : List FmtCode)
    (attrs : List Attr) (h : attrs.length ≠ fmt.length) :
    structPack bo fmt attrs = none := by
  induction fmt generalizing attrs with
  | nil =>
      cases attrs with
      | nil => simp at h
      | cons a as => simp [structPack]
  | cons c cs ih =>
      cases attrs with
      | nil => simp [structPack]
      | cons a as =>
          simp at h
          cases hp : packOne bo c a with
          | none => simp [structPack, hp]
          | some piece => simp [structPack, hp, ih as (by omega)]

/-- `pack` distributes over concatenation when the first parts have matching
arity. -/
theorem structPack_append (bo : PyByteOrder) (f1 f2 : List FmtCode)
    (a1 a2 : List Attr) (h : a1.length = f1.length) :
    structPack bo (f1 ++ f2) (a1 ++ a2) =
      (structPack bo f1 a1).bind
        (fun b1 => (structPack bo f2 a2).map (fun b2 => b1 ++ b2)) := by
  induction f1 generalizing a1 with
  | nil =>
      cases a1 with
      | nil => cases hq : structPack bo f2 a2 <;> simp [structPack, hq]
      | cons a as => simp at h
  | cons c cs ih =>
      cases a1 with
      | nil => simp at h
      | cons a as =>
          simp at h
          cases hp : packOne bo c a <;>
            cases hq : structPack bo cs as <;>
              cases hr : structPack bo f2 a2 <;>
                simp [structPack, hp, hq, hr, ih as h, List.append_assoc]

/-- `unpack` splitting distributes over concatenation at a format boundary. -/
theorem unpackPieces_append (bo : PyByteOrder) (f1 f2 : List FmtCode)
    (d1 d2 : List Nat) (h : d1.length = fmtSize f1) :
    unpackPieces bo (f1 ++ f2) (d1 ++ d2) =
      unpackPieces bo f1 d1 ++ unpackPieces bo f2 d2 := by
  induction f1 generalizing d1 with
  | nil =>
      simp [fmtSize] at h
      subst h
      simp [unpackPieces]
  | cons c cs ih =>
      rw [fmtSize_cons] at h
      have hle : codeSize c ≤ d1.length := by omega
      have hdrop : (d1.drop (codeSize c)).length = fmtSize cs := by
        simp
        omega
      simp only [List.cons_append, unpackPieces, List.append_eq,
        List.take_append_of_le_length hle, List.drop_append_of_le_length hle,
        ih (d1.drop (codeSize c)) hdrop]

/-! ## UTF-8 lemmas -/

theorem utf8Encode_nil : utf8Encode [] = [] := rfl

theorem utf8Encode_cons (c : Nat) (cs : List Nat) :
    utf8Encode (c :: cs) = utf8EncodeChar c ++ utf8Encode cs := by
  simp [utf8Encode]

theorem utf8Encode_append (cs ds : List Nat) :
    utf8Encode (cs ++ ds) = utf8Encode cs ++ utf8Encode ds := by
  simp [utf8Encode]

theorem utf8EncodeChar_ne_nil (c : Nat) : utf8EncodeChar c ≠ [] := by
  unfold utf8EncodeChar
  split_ifs <;> simp

theorem utf8EncodeChar_zero : utf8EncodeChar 0 = [0] := rfl

theorem utf8Encode_replicate_zero (k : Nat) :
    utf8Encode (List.replicate k 0) = List.replicate k 0 := by
  induction k with
  | zero => rfl
  | succ k ih => simp [List.replicate_succ, utf8Encode_cons, utf8EncodeChar_zero, ih]

/-- Every byte of the UTF-8 encoding of a nonzero code point is nonzero
(continuation and lead bytes of multi-byte sequences are `≥ 0x80`). -/
theorem utf8EncodeChar_pos (c : Nat) (hc : c ≠ 0) :
    ∀ b ∈ utf8EncodeChar c, b ≠ 0 := by
  intro b hb
  unfold utf8EncodeChar at hb
  split_ifs at hb <;> simp at hb <;> omega

theorem dropWhile_replicate_zero_append (k : Nat) (ys : List Nat) :
    (List.replicate k 0 ++ ys).dropWhile (· = 0) = ys.dropWhile (· = 0) := by
  induction k with
  | zero => simp
  | succ k ih => simp [List.replicate_succ, ih]

/-- Stripping trailing zeros ignores appended zeros. -/
theorem rstripZeros_append_replicate (xs : List Nat) (k : Nat) :
    rstripZeros (xs ++ List.replicate k 0) = rstripZeros xs := by
  unfold rstripZeros
  rw [List.reverse_append, List.reverse_replicate, dropWhile_replicate_zero_append]

/-- A list not ending in zero is unchanged by stripping. -/
theorem rstripZeros_of_getLastD (xs : List Nat) (h : xs.getLastD 1 ≠ 0) :
    rstripZeros xs = xs := by
  unfold rstripZeros
  cases hx : xs.reverse with
  | nil =>
      have hxs : xs = [] := by simpa using congrArg List.reverse hx
      subst hxs
      rfl
  | cons b bs =>
      have hxs : xs = bs.reverse ++ [b] := by simpa using congrArg List.reverse hx
      have hb : b ≠ 0 := by
        rw [hxs] at h
        simpa [List.getLastD_concat] using h
      rw [List.dropWhile_cons_of_neg (by simpa using hb), ← hx, List.reverse_reverse]

/-- `rstripNulCP` and `rstripZeros` are the same operation on lists. -/
theorem rstripNulCP_eq_rstripZeros (xs : List Nat) :
    rstripNulCP xs = rstripZeros xs := rfl

/-- Every list is its stripped form plus trailing zeros. -/
theorem rstripNulCP_spec (xs : List Nat) :
    ∃ k, xs = rstripNulCP xs ++ List.replicate k 0 := by
  refine ⟨(xs.reverse.takeWhile (· = 0)).length, ?_⟩
  unfold rstripNulCP
  have hrep : xs.reverse.takeWhile (· = 0) =
      List.replicate (xs.reverse.takeWhile (· = 0)).length 0 := by
    refine List.eq_replicate_of_mem ?_
    intro b hb
    simpa using List.mem_takeWhile_imp hb
  conv_lhs => rw [← List.reverse_reverse xs,
    ← List.takeWhile_append_dropWhile (· = 0) xs.reverse]
  rw [List.reverse_append]
  congr 1
  rw [hrep]
  simp

/-- The stripped form does not end in zero. -/
theorem rstripNulCP_getLastD (xs : List Nat) : (rstripNulCP xs).getLastD 1 ≠ 0 := by
  unfold rstripNulCP
  cases hys : xs.reverse.dropWhile (· = 0) with
  | nil => simp
  | cons y ys =>
      have hy := List.head?_dropWhile_not (· = 0) xs.reverse
      rw [hys] at hy
      simp at hy
      simpa [List.getLastD_concat] using hy

/-- The single-sequence parser inverts the single-character encoder on
unicode scalar values, leaving the rest of the buffer untouched. -/
theorem utf8DecodeChar?_encodeChar (c : Nat) (hc : isScalar c = true)
    (rest : List Nat) :
    utf8DecodeChar? (utf8EncodeChar c ++ rest) = some (c, rest) := by
  simp only [isScalar, decide_eq_true_eq] at hc
  by_cases h1 : c < 0x80
  · rw [show utf8EncodeChar c = [c] from by simp [utf8EncodeChar, h1]]
    simp [utf8DecodeChar?, h1]
  · by_cases h2 : c < 0x800
    · have e1 : ¬ 0xC0 + c / 64 < 0x80 := by omega
      have e2 : ¬ 0xC0 + c / 64 < 0xC2 := by omega
      have e3 : 0xC0 + c / 64 < 0xE0 := by omega
      have e4 : 0x80 ≤ 0x80 + c % 64 := by omega
      have e5 : 0x80 + c % 64 < 0xC0 := by omega
      have ev : (0xC0 + c / 64 - 0xC0) * 64 + (0x80 + c % 64 - 0x80) = c := by omega
      rw [show utf8EncodeChar c = [0xC0 + c / 64, 0x80 + c % 64] from by
        simp [utf8EncodeChar, h1, h2]]
      simp [utf8DecodeChar?, e1, e2, e3, e4, e5, ev]
      omega
    · by_cases h3 : c < 0x10000
      · have e1 : ¬ 0xE0 + c / 4096 < 0x80 := by omega
        have e2 : ¬ 0xE0 + c / 4096 < 0xC2 := by omega
        have e3 : ¬ 0xE0 + c / 4096 < 0xE0 := by omega
        have e4 : 0xE0 + c / 4096 < 0xF0 := by omega
        have e5 : 0x80 ≤ 0x80 + c / 64 % 64 := by omega
        have e6 : 0x80 + c / 64 % 64 < 0xC0 := by omega
        have e7 : 0x80 ≤ 0x80 + c % 64 := by omega
        have e8 : 0x80 + c % 64 < 0xC0 := by omega
        have ev : (0xE0 + c / 4096 - 0xE0) * 4096 + (0x80 + c / 64 % 64 - 0x80) * 64
            + (0x80 + c % 64 - 0x80) = c := by omega
        have hok : ¬ (c < 0x800 ∨ (0xD800 ≤ c ∧ c < 0xE000)) := by
          rcases hc with ⟨hlt, hns⟩
          push_neg
          exact ⟨by omega, fun hs => by omega⟩
        rw [show utf8EncodeChar c
            = [0xE0 + c / 4096, 0x80 + c / 64 % 64, 0x80 + c % 64] from by
          simp [utf8EncodeChar, h1, h2, h3]]
        simp only [List.cons_append, List.nil_append, utf8DecodeChar?]
        rw [if_neg e1, if_neg e2, if_neg e3, if_pos e4,
          if_pos ⟨e5, e6, e7, e8⟩]
        simp only [ev, hok, if_neg]
        push_neg at hok
        simp [ev, hok.1, hok.2]
      · have hlt : c < 0x110000 := hc.1
        have e1 : ¬ 0xF0 + c / 0x40000 < 0x80 := by omega
        have e2 : ¬ 0xF0 + c / 0x40000 < 0xC2 := by omega
        have e3 : ¬ 0xF0 + c / 0x40000 < 0xE0 := by omega
        have e4 : ¬ 0xF0 + c / 0x40000 < 0xF0 := by omega
        have e5 : 0xF0 + c / 0x40000 < 0xF5 := by omega
        have f1 : 0x80 ≤ 0x80 + c / 4096 % 64 := by omega
        have f2 : 0x80 + c / 4096 % 64 < 0xC0 := by omega
        have f3 : 0x80 ≤ 0x80 + c / 64 % 64 := by omega
        have f4 : 0x80 + c / 64 % 64 < 0xC0 := by omega
        have f5 : 0x80 ≤ 0x80 + c % 64 := by omega
        have f6 : 0x80 + c % 64 < 0xC0 := by omega
        have ev : (0xF0 + c / 0x40000 - 0xF0) * 0x40000
            + (0x80 + c / 4096 % 64 - 0x80) * 4096
            + (0x80 + c / 64 % 64 - 0x80) * 64 + (0x80 + c % 64 - 0x80) = c := by omega
        have hok : ¬ (c < 0x10000 ∨ 0x110000 ≤ c) := by omega
        rw [show utf8EncodeChar c = [0xF0 + c / 0x40000, 0x80 + c / 4096 % 64,
            0x80 + c / 64 % 64, 0x80 + c % 64] from by
          simp [utf8EncodeChar, h1, h2, h3]]
        simp only [List.cons_append, List.nil_append, utf8DecodeChar?]
        rw [if_neg e1, if_neg e2, if_neg e3, if_neg e4, if_pos e5,
          if_pos ⟨f1, f2, f3, f4, f5, f6⟩]
        simp only [ev]
        push_neg at hok
        simp [hok.1, hok.2]

theorem utf8Decode_nil : utf8Decode [] = some [] := by
  unfold utf8Decode
  rfl

/-- One decoding step. -/
theorem utf8Decode_step (l : List Nat) (c : Nat) (rest : List Nat)
    (hne : l ≠ []) (h : utf8DecodeChar? l = some (c, rest)) :
    utf8Decode l = (utf8Decode rest).map (c :: ·) := by
  conv_lhs => rw [utf8Decode.eq_def]
  rw [dif_neg hne]
  split
  · rename_i cr hm
    rw [h] at hm
    cases hm
    rfl
  · rename_i hm
    rw [h] at hm
    cases hm

/-- Strict UTF-8 decoding inverts encoding on unicode scalar values. -/
theorem utf8Decode_encode (cs : List Nat) (h : ∀ c ∈ cs, isScalar c = true) :
    utf8Decode (utf8Encode cs) = some cs := by
  induction cs with
  | nil => rw [utf8Encode_nil, utf8Decode_nil]
  | cons c cs ih =>
      have hc := h c (by simp)
      have ih' := ih (fun x hx => h x (by simp [hx]))
      rw [utf8Encode_cons]
      have hne : utf8EncodeChar c ++ utf8Encode cs ≠ [] := by
        simp [utf8EncodeChar_ne_nil]
      rw [utf8Decode_step _ c (utf8Encode cs) hne
        (utf8DecodeChar?_encodeChar c hc _), ih']
      rfl

/-- Encoded strings with no trailing NUL end in a nonzero byte. -/
theorem utf8Encode_getLastD (cs : List Nat) (h : cs.getLastD 1 ≠ 0) :
    (utf8Encode cs).getLastD 1 ≠ 0 := by
  induction cs with
  | nil => simp [utf8Encode_nil]
  | cons c cs ih =>
      rw [utf8Encode_cons]
      cases cs with
      | nil =>
          rw [List.getLastD_cons] at h
          simp only [utf8Encode_nil, List.append_nil]
          have hne := utf8EncodeChar_ne_nil c
          have hmem : (utf8EncodeChar c).getLast hne ∈ utf8EncodeChar c :=
            List.getLast_mem hne
          have hlast : (utf8EncodeChar c).getLastD 1 = (utf8EncodeChar c).getLast hne := by

            rw [List.getLastD_eq_getLast?, List.getLast?_eq_getLast _ hne]
            rfl
          rw [hlast]
          exact utf8EncodeChar_pos c (by simpa using h) _ hmem
      | cons d ds =>
          rw [List.getLastD_cons] at h
          have h2 : (d :: ds).getLastD 1 ≠ 0 := by
            rw [List.getLastD_cons] at h ⊢
            exact h
          have hne : utf8Encode (d :: ds) ≠ [] := by
            rw [utf8Encode_cons]
            simp [utf8EncodeChar_ne_nil]
          have := ih h2
          rw [List.getLastD_eq_getLast?] at this ⊢
          rw [List.getLast?_append]
          cases hg : (utf8Encode (d :: ds)).getLast? with
          | none => simp [List.getLast?_eq_none_iff.mp hg] at hne
          | some x =>
              rw [hg] at this
              simpa using this

/-- Decoding a zero-filled slot holding an encoded string yields the string
with its trailing NUL code points removed. -/
theorem utf8_slot_decode (cs : List Nat) (k : Nat)
    (h : ∀ c ∈ cs, isScalar c = true) :
    utf8Decode (rstripZeros (utf8Encode cs ++ List.replicate k 0)) =
      some (rstripNulCP cs) := by
  obtain ⟨j, hj⟩ := rstripNulCP_spec cs
  have hmem : ∀ c ∈ rstripNulCP cs, isScalar c = true := by
    intro c hcmem
    refine h c ?_
    rw [hj]
    exact List.mem_append_left _ hcmem
  rw [rstripZeros_append_replicate]
  conv_lhs => rw [hj]
  rw [utf8Encode_append, utf8Encode_replicate_zero, rstripZeros_append_replicate,
    rstripZeros_of_getLastD _ (utf8Encode_getLastD _ (rstripNulCP_getLastD cs)),
    utf8Decode_encode _ hmem]

end BStruct

namespace BStruct

/-! ## The per-field round-trip invariant

For every valid field value: the compiled encoder appends exactly the
attributes the field's format fragment declares; packing them succeeds and
produces the fragment's byte size; unpacking those bytes and running the
compiled decoder reproduces the value and leaves the rest of the attribute
cursor untouched. -/

theorem unpackPieces_single (bo : PyByteOrder) (c : FmtCode) (data : List Nat)
    (h : data.length = codeSize c) :
    unpackPieces bo [c] data = [unpackOne bo c data] := by
  rw [unpackPieces, unpackPieces, List.take_of_length_le (le_of_eq h)]

theorem fmtSize_single (c : FmtCode) : fmtSize [c] = codeSize c := by
  simp [fmtSize]

theorem fieldRoundTripAux (fuel : Nat) :
    ∀ (t : FieldTy), sizeOf t < fuel →
    ∀ (v : Value) (bo : PyByteOrder), validF t v = true →
    ∃ (δ : List Attr) (data : List Nat),
      (∀ attrs, encF t v bo attrs = .ok (attrs ++ δ)) ∧
      δ.length = (fmtOfF t).length ∧
      structPack bo (fmtOfF t) δ = some data ∧
      data.length = fmtSize (fmtOfF t) ∧
      (∀ rest, decF t (unpackPieces bo (fmtOfF t) data ++ rest) bo = .ok (v, rest)) := by
  induction fuel with
  | zero => intro t ht; omega
  | succ fuel ih =>
      intro t ht v bo hv
      cases t with
      | tBool =>
          cases v <;> simp [validF] at hv
          case vBool b =>
            refine ⟨[.abool b], [if b then 1 else 0], ?_, ?_, ?_, ?_, ?_⟩
            · intro attrs
              rw [encF]
              simp [rawEncode, toAttr]
            · rw [fmtOfF]; rfl
            · rw [fmtOfF]
              simp [structPack, packOne]
            · rw [fmtOfF, fmtSize_single]
              cases b <;> simp [codeSize]
            · intro rest
              rw [fmtOfF, unpackPieces_single bo _ _ (by cases b <;> simp [codeSize]),
                decF]
              cases b <;> simp [unpackOne, leToNat, rawDecode, attrToValue]
      | tUInt w =>
          cases v <;> simp [validF] at hv
          case vInt n =>
            refine ⟨[.aint n], orderBytes bo (natToLE w n.toNat), ?_, ?_, ?_, ?_, ?_⟩
            · intro attrs
              rw [encF]
              simp [rawEncode, toAttr]
            · rw [fmtOfF]; rfl
            · rw [fmtOfF]
              simp [structPack, packOne, hv.1, hv.2]
            · rw [fmtOfF, fmtSize_single]
              simp [codeSize, orderBytes_length, natToLE_length]
            · intro rest
              rw [fmtOfF,
                unpackPieces_single bo _ _ (by simp [codeSize, orderBytes_length, natToLE_length]),
                decF]
              have castN : ((2 ^ (8 * w) : Nat) : Int) = 2 ^ (8 * w) := by push_cast; ring
              have hnN : n.toNat < 2 ^ (8 * w) := by omega
              have hn : leToNat (orderBytes bo (orderBytes bo (natToLE w n.toNat))) = n.toNat := by
                rw [orderBytes_orderBytes, leToNat_natToLE w _ hnN]
              simp [unpackOne, hn, rawDecode, attrToValue]
              omega
      | tSInt w =>
          cases v <;> simp [validF] at hv
          case vInt n =>
            obtain ⟨hw, h0, h1⟩ := hv
            refine ⟨[.aint n],
              orderBytes bo (natToLE w (n % (2 ^ (8 * w) : Int)).toNat), ?_, ?_, ?_, ?_, ?_⟩
            · intro attrs
              rw [encF]
              simp [rawEncode, toAttr]
            · rw [fmtOfF]; rfl
            · rw [fmtOfF]
              simp [structPack, packOne, h0, h1]
            · rw [fmtOfF, fmtSize_single]
              simp [codeSize, orderBytes_length, natToLE_length]
            · intro rest
              rw [fmtOfF,
                unpackPieces_single bo _ _ (by simp [codeSize, orderBytes_length, natToLE_length]),
                decF]
              simp [unpackOne, intFromBytes_signed bo w n hw h0 h1, rawDecode, attrToValue]
      | tUBig m =>
          cases v <;> simp [validF] at hv
          case vInt n =>
            refine ⟨[.abytes (orderBytes bo (natToLE m n.toNat))],
              orderBytes bo (natToLE m n.toNat), ?_, ?_, ?_, ?_, ?_⟩
            · intro attrs
              rw [encF]
              simp [encodeBig, valueInt?, intToBytes, hv.1, hv.2]
            · rw [fmtOfF]; rfl
            · rw [fmtOfF]
              have hl : (orderBytes bo (natToLE m n.toNat)).length = m := by
                simp [orderBytes_length, natToLE_length]
              simp [structPack, packOne, List.take_of_length_le (le_of_eq hl), hl]
            · rw [fmtOfF, fmtSize_single]
              simp [codeSize, orderBytes_length, natToLE_length]
            · intro rest
              rw [fmtOfF,
                unpackPieces_single bo _ _ (by simp [codeSize, orderBytes_length, natToLE_length]),
                decF]
              simp [unpackOne, decodeBigInt, intFromBytes_unsigned bo m n hv.1 hv.2]
      | tSBig m =>
          cases v <;> simp [validF] at hv
          case vInt n =>
            obtain ⟨hw, h0, h1⟩ := hv
            refine ⟨[.abytes (orderBytes bo (natToLE m (n % (2 ^ (8 * m) : Int)).toNat))],
              orderBytes bo (natToLE m (n % (2 ^ (8 * m) : Int)).toNat), ?_, ?_, ?_, ?_, ?_⟩
            · intro attrs
              rw [encF]
              simp [encodeBig, valueInt?, intToBytes, h0, h1]
            · rw [fmtOfF]; rfl
            · rw [fmtOfF]
              have hl : (orderBytes bo (natToLE m (n % (2 ^ (8 * m) : Int)).toNat)).length = m := by
                simp [orderBytes_length, natToLE_length]
              simp [structPack, packOne, List.take_of_length_le (le_of_eq hl), hl]
            · rw [fmtOfF, fmtSize_single]
              simp [codeSize, orderBytes_length, natToLE_length]
            · intro rest
              rw [fmtOfF,
                unpackPieces_single bo _ _ (by simp [codeSize, orderBytes_length, natToLE_length]),
                decF]
              simp [unpackOne, decodeBigInt, intFromBytes_signed bo m n hw h0 h1]
      | tBytes m =>
          cases v <;> simp [validF] at hv
          case vBytes bs =>
            refine ⟨[.abytes bs], bs, ?_, ?_, ?_, ?_, ?_⟩
            · intro attrs
              rw [encF]
              simp [rawEncode, toAttr]
            · rw [fmtOfF]; rfl
            · rw [fmtOfF]
              simp [structPack, packOne, List.take_of_length_le (le_of_eq hv.1), hv.1]
            · rw [fmtOfF, fmtSize_single]
              simp [codeSize, hv.1]
            · intro rest
              rw [fmtOfF, unpackPieces_single bo _ _ (by simp [codeSize, hv.1]), decF]
              simp [unpackOne, rawDecode, attrToValue]
      | tStr m =>
          cases v <;> simp [validF] at hv
          case vStr cs =>
            obtain ⟨⟨hscal, hfit⟩, hlast0⟩ := hv
            have hlast : cs.getLastD 1 ≠ 0 := by simpa using hlast0
            have hall : cs.all isScalar = true := by
              rw [List.all_eq_true]
              intro c hc
              exact hscal c hc
            refine ⟨[.abytes (utf8Encode cs)],
              utf8Encode cs ++ List.replicate (m - (utf8Encode cs).length) 0,
              ?_, ?_, ?_, ?_, ?_⟩
            · intro attrs
              rw [encF]
              simp [encodeStr, hall]
            · rw [fmtOfF]; rfl
            · rw [fmtOfF]
              simp [structPack, packOne, List.take_of_length_le hfit]
            · rw [fmtOfF, fmtSize_single]
              simp [codeSize]
              omega
            · intro rest
              rw [fmtOfF,
                unpackPieces_single bo _ _ (by simp [codeSize]; omega), decF]
              have hdec := utf8_slot_decode cs (m - (utf8Encode cs).length) hscal
              rw [rstripNulCP_eq_rstripZeros, rstripZeros_of_getLastD cs hlast] at hdec
              simp [unpackOne, decodeStr, hdec]
      | tI80F48 =>
          cases v with
          | vBool b => simp [validF] at hv
          | vInt n => simp [validF] at hv
          | vBytes bs => simp [validF] at hv
          | vStr cs => simp [validF] at hv
          | vList vs => simp [validF] at hv
          | vStruct vs => simp [validF] at hv
          | vDec q =>
            rw [validF, Bool.and_eq_true, decide_eq_true_eq, decide_eq_true_eq] at hv
            obtain ⟨⟨h0, h1⟩, hq⟩ := hv
            have h127 : (8 * 16 - 1 : Nat) = 127 := by norm_num
            have h0' : -(2 ^ (8 * 16 - 1) : Int) ≤ truncQ (decMul q (mkRat (2 ^ 48) 1)) := by
              rw [h127]
              exact h0
            have h1' : truncQ (decMul q (mkRat (2 ^ 48) 1)) < (2 ^ (8 * 16 - 1) : Int) := by
              rw [h127]
              exact h1
            have hl : (orderBytes bo (natToLE 16
                ((truncQ (decMul q (mkRat (2 ^ 48) 1)) % (2 ^ (8 * 16) : Int)).toNat))).length
                = 16 := by
              simp [orderBytes_length, natToLE_length]
            refine ⟨[.abytes (orderBytes bo (natToLE 16
                ((truncQ (decMul q (mkRat (2 ^ 48) 1)) % (2 ^ (8 * 16) : Int)).toNat)))],
              orderBytes bo (natToLE 16
                ((truncQ (decMul q (mkRat (2 ^ 48) 1)) % (2 ^ (8 * 16) : Int)).toNat)),
              ?_, ?_, ?_, ?_, ?_⟩
            · intro attrs
              rw [encF]
              simp only [encodeI80F48, intToBytes, if_true]
              rw [if_pos ⟨h0', h1'⟩]
              simp
            · rw [fmtOfF]; rfl
            · rw [fmtOfF]
              simp only [structPack, packOne]
              rw [List.take_of_length_le (le_of_eq hl), hl]
              simp
            · rw [fmtOfF, fmtSize_single]
              simp [codeSize, orderBytes_length, natToLE_length]
            · intro rest
              have hrt := intFromBytes_signed bo 16 (truncQ (decMul q (mkRat (2 ^ 48) 1)))
                (by norm_num) h0' h1'
              rw [fmtOfF,
                unpackPieces_single bo _ _ (by simp [codeSize, orderBytes_length, natToLE_length]),
                decF]
              simp only [List.singleton_append, unpackOne, decodeI80F48]
              rw [hrt, hq]
      | tEnum members u =>
          cases v <;> simp [validF] at hv
          case vInt k =>
            obtain ⟨hmem, hrange⟩ := hv
            cases u with
            | native s w =>
                cases s with
                | false =>
                    simp [inRangeIntEnc] at hrange
                    refine ⟨[.aint k], orderBytes bo (natToLE w k.toNat), ?_, ?_, ?_, ?_, ?_⟩
                    · intro attrs
                      rw [encF]
                      simp [rawEncode, toAttr]
                    · rw [fmtOfF]; rfl
                    · rw [fmtOfF]
                      simp [intEncFmt, structPack, packOne, hrange.1, hrange.2]
                    · rw [fmtOfF, fmtSize_single]
                      simp [intEncFmt, codeSize, orderBytes_length, natToLE_length]
                    · intro rest
                      rw [fmtOfF]
                      rw [unpackPieces_single bo _ _
                        (by simp [intEncFmt, codeSize, orderBytes_length, natToLE_length]), decF]
                      have castN : ((2 ^ (8 * w) : Nat) : Int) = 2 ^ (8 * w) := by
                        push_cast; ring
                      have hkN : k.toNat < 2 ^ (8 * w) := by omega
                      have hn : leToNat (orderBytes bo (orderBytes bo (natToLE w k.toNat)))
                          = k.toNat := by
                        rw [orderBytes_orderBytes, leToNat_natToLE w _ hkN]
                      have hk : (k.toNat : Int) = k := by omega
                      simp [intEncFmt, unpackOne, hn, decodeEnum, hk, hmem]
                | true =>
                    simp [inRangeIntEnc] at hrange
                    obtain ⟨hw, h0, h1⟩ := hrange
                    refine ⟨[.aint k],
                      orderBytes bo (natToLE w (k % (2 ^ (8 * w) : Int)).toNat), ?_, ?_, ?_, ?_, ?_⟩
                    · intro attrs
                      rw [encF]
                      simp [rawEncode, toAttr]
                    · rw [fmtOfF]; rfl
                    · rw [fmtOfF]
                      simp [intEncFmt, structPack, packOne, h0, h1]
                    · rw [fmtOfF, fmtSize_single]
                      simp [intEncFmt, codeSize, orderBytes_length, natToLE_length]
                    · intro rest
                      rw [fmtOfF]
                      rw [unpackPieces_single bo _ _
                        (by simp [intEncFmt, codeSize, orderBytes_length, natToLE_length]), decF]
                      simp [intEncFmt, unpackOne, intFromBytes_signed bo w k hw h0 h1,
                        decodeEnum, hmem]
            | big s n =>
                cases s with
                | false =>
                    simp [inRangeIntEnc] at hrange
                    refine ⟨[.abytes (orderBytes bo (natToLE n k.toNat))],
                      orderBytes bo (natToLE n k.toNat), ?_, ?_, ?_, ?_, ?_⟩
                    · intro attrs
                      rw [encF]
                      simp [encodeBig, valueInt?, intToBytes, hrange.1, hrange.2]
                    · rw [fmtOfF]; rfl
                    · rw [fmtOfF]
                      have hl : (orderBytes bo (natToLE n k.toNat)).length = n := by
                        simp [orderBytes_length, natToLE_length]
                      simp [intEncFmt, structPack, packOne,
                        List.take_of_length_le (le_of_eq hl), hl]
                    · rw [fmtOfF, fmtSize_single]
                      simp [intEncFmt, codeSize, orderBytes_length, natToLE_length]
                    · intro rest
                      rw [fmtOfF]
                      rw [unpackPieces_single bo _ _
                        (by simp [intEncFmt, codeSize, orderBytes_length, natToLE_length]), decF]
                      simp [intEncFmt, unpackOne, decodeEnum,
                        intFromBytes_unsigned bo n k hrange.1 hrange.2, hmem]
                | true =>
                    simp [inRangeIntEnc] at hrange
                    obtain ⟨hw, h0, h1⟩ := hrange
                    refine ⟨[.abytes (orderBytes bo (natToLE n (k % (2 ^ (8 * n) : Int)).toNat))],
                      orderBytes bo (natToLE n (k % (2 ^ (8 * n) : Int)).toNat), ?_, ?_, ?_, ?_, ?_⟩
                    · intro attrs
                      rw [encF]
                      simp [encodeBig, valueInt?, intToBytes, h0, h1]
                    · rw [fmtOfF]; rfl
                    · rw [fmtOfF]
                      have hl : (orderBytes bo (natToLE n (k % (2 ^ (8 * n) : Int)).toNat)).length
                          = n := by
                        simp [orderBytes_length, natToLE_length]
                      simp [intEncFmt, structPack, packOne,
                        List.take_of_length_le (le_of_eq hl), hl]
                    · rw [fmtOfF, fmtSize_single]
                      simp [intEncFmt, codeSize, orderBytes_length, natToLE_length]
                    · intro rest
                      rw [fmtOfF]
                      rw [unpackPieces_single bo _ _
                        (by simp [intEncFmt, codeSize, orderBytes_length, natToLE_length]), decF]
                      simp [intEncFmt, unpackOne, decodeEnum,
                        intFromBytes_signed bo n k hw h0 h1, hmem]
      | tArray inner len =>
          cases v <;> simp [validF] at hv
          case vList vs =>
            obtain ⟨hlen, hval⟩ := hv
            subst hlen
            have hsz : sizeOf inner < fuel := by
              have hspec : sizeOf (FieldTy.tArray inner vs.length)
                  = 1 + sizeOf inner + sizeOf vs.length := by
                simp
              omega
            have main : ∀ vs', validList inner vs' = true →
                ∃ δ data,
                  (∀ attrs, encList inner vs' bo attrs = .ok (attrs ++ δ)) ∧
                  δ.length = ((List.replicate vs'.length (fmtOfF inner)).flatten).length ∧
                  structPack bo ((List.replicate vs'.length (fmtOfF inner)).flatten) δ
                    = some data ∧
                  data.length = fmtSize ((List.replicate vs'.length (fmtOfF inner)).flatten) ∧
                  (∀ rest, decList inner vs'.length
                      (unpackPieces bo ((List.replicate vs'.length (fmtOfF inner)).flatten) data
                        ++ rest) bo
                    = .ok (vs', rest)) := by
              intro vs'
              induction vs' with
              | nil =>
                  intro hv0
                  refine ⟨[], [], ?_, ?_, ?_, ?_, ?_⟩
                  · intro attrs
                    rw [encList]
                    simp
                  · simp
                  · simp [structPack]
                  · simp [fmtSize]
                  · intro rest
                    simp [unpackPieces, decList]
              | cons v' vs'' ihvs =>
                  intro hval'
                  rw [validList, Bool.and_eq_true] at hval'
                  obtain ⟨δ₁, data₁, he₁, hl₁, hp₁, hd₁, hdec₁⟩ := ih inner hsz v' bo hval'.1
                  obtain ⟨δ₂, data₂, he₂, hl₂, hp₂, hd₂, hdec₂⟩ := ihvs hval'.2
                  refine ⟨δ₁ ++ δ₂, data₁ ++ data₂, ?_, ?_, ?_, ?_, ?_⟩
                  · intro attrs
                    rw [encList, he₁ attrs]
                    simp only [except_bind_ok]
                    rw [he₂ (attrs ++ δ₁), List.append_assoc]
                  · simp only [List.length_cons, List.replicate_succ, List.flatten_cons,
                      List.length_append]
                    omega
                  · rw [List.length_cons, List.replicate_succ, List.flatten_cons,
                      structPack_append bo _ _ δ₁ δ₂ hl₁, hp₁, hp₂]
                    rfl
                  · rw [List.length_cons, List.replicate_succ, List.flatten_cons, fmtSize_append]
                    simp only [List.length_append]
                    omega
                  · intro rest
                    rw [List.length_cons, List.replicate_succ, List.flatten_cons,
                      unpackPieces_append bo _ _ data₁ data₂ hd₁, List.append_assoc]
                    simp only [decList]
                    rw [hdec₁ _]
                    simp only [except_bind_ok]
                    rw [hdec₂ rest]
                    rfl
            obtain ⟨δ, data, he, hl, hp, hd, hdec⟩ := main vs hval
            refine ⟨δ, data, ?_, ?_, ?_, ?_, ?_⟩
            · intro attrs
              rw [encF_array_eq_encList]
              exact he attrs
            · rw [fmtOfF_tArray]
              exact hl
            · rw [fmtOfF_tArray]
              exact hp
            · rw [fmtOfF_tArray]
              exact hd
            · intro rest
              rw [fmtOfF_tArray, decF, hdec rest]
              rfl
      | tStruct fields =>
          cases v <;> simp [validF] at hv
          case vStruct vs =>
            have hlen := validZip_length fields vs hv
            have hsize : ∀ t' ∈ fields, sizeOf t' < fuel := by
              intro t' ht'
              have h1 := List.sizeOf_lt_of_mem ht'
              have h2 : sizeOf (FieldTy.tStruct fields) = 1 + sizeOf fields := by simp
              omega
            have main : ∀ (fs : List FieldTy), (∀ t' ∈ fs, sizeOf t' < fuel) →
                ∀ vs', validZip fs vs' = true →
                ∃ δ data,
                  (∀ attrs, encZip fs vs' bo attrs = .ok (attrs ++ δ)) ∧
                  δ.length = ((fs.map fmtOfF).flatten).length ∧
                  structPack bo ((fs.map fmtOfF).flatten) δ = some data ∧
                  data.length = fmtSize ((fs.map fmtOfF).flatten) ∧
                  (∀ rest, decZip fs (unpackPieces bo ((fs.map fmtOfF).flatten) data ++ rest) bo
                    = .ok (vs', rest)) := by
              intro fs
              induction fs with
              | nil =>
                  intro _ vs' hz
                  cases vs' with
                  | nil =>
                      refine ⟨[], [], ?_, ?_, ?_, ?_, ?_⟩
                      · intro attrs
                        rw [encZip]
                        simp
                      · simp
                      · simp [structPack]
                      · simp [fmtSize]
                      · intro rest
                        rw [decZip]
                        simp [unpackPieces]
                  | cons _ _ => simp [validZip] at hz
              | cons t' ts ihts =>
                  intro hsz vs' hz
                  cases vs' with
                  | nil => simp [validZip] at hz
                  | cons v' vs'' =>
                      rw [validZip, Bool.and_eq_true] at hz
                      obtain ⟨δ₁, data₁, he₁, hl₁, hp₁, hd₁, hdec₁⟩ :=
                        ih t' (hsz t' (by simp)) v' bo hz.1
                      obtain ⟨δ₂, data₂, he₂, hl₂, hp₂, hd₂, hdec₂⟩ :=
                        ihts (fun x hx => hsz x (by simp [hx])) vs'' hz.2
                      refine ⟨δ₁ ++ δ₂, data₁ ++ data₂, ?_, ?_, ?_, ?_, ?_⟩
                      · intro attrs
                        rw [encZip, he₁ attrs]
                        simp only [except_bind_ok]
                        rw [he₂ (attrs ++ δ₁), List.append_assoc]
                      · simp only [List.map_cons, List.flatten_cons, List.length_append]
                        omega
                      · rw [List.map_cons, List.flatten_cons,
                          structPack_append bo _ _ δ₁ δ₂ hl₁, hp₁, hp₂]
                        rfl
                      · rw [List.map_cons, List.flatten_cons, fmtSize_append]
                        simp only [List.length_append]
                        omega
                      · intro rest
                        rw [List.map_cons, List.flatten_cons,
                          unpackPieces_append bo _ _ data₁ data₂ hd₁, List.append_assoc]
                        simp only [decZip]
                        rw [hdec₁ _]
                        simp only [except_bind_ok]
                        rw [hdec₂ rest]
                        rfl
            obtain ⟨δ, data, he, hl, hp, hd, hdec⟩ := main fields hsize vs hv
            refine ⟨δ, data, ?_, ?_, ?_, ?_, ?_⟩
            · intro attrs
              rw [encF, if_pos hlen]
              exact he attrs
            · rw [fmtOfF_tStruct]
              exact hl
            · rw [fmtOfF_tStruct]
              exact hp
            · rw [fmtOfF_tStruct]
              exact hd
            · intro rest
              rw [fmtOfF_tStruct, decF, hdec rest]
              rfl

end BStruct


namespace BStruct

/-! ## Corollaries of the round-trip invariant -/

/-- Fuel-free form of the per-field round trip. -/
theorem fieldRoundTrip (t : FieldTy) (v : Value) (bo : PyByteOrder)
    (hv : validF t v = true) :
    ∃ (δ : List Attr) (data : List Nat),
      (∀ attrs, encF t v bo attrs = .ok (attrs ++ δ)) ∧
      δ.length = (fmtOfF t).length ∧
      structPack bo (fmtOfF t) δ = some data ∧
      data.length = fmtSize (fmtOfF t) ∧
      (∀ rest, decF t (unpackPieces bo (fmtOfF t) data ++ rest) bo = .ok (v, rest)) :=
  fieldRoundTripAux (sizeOf t + 1) t (by omega) v bo hv

/-- The record-level round trip, fieldwise. -/
theorem encZipRoundTrip (fs : List FieldTy) (bo : PyByteOrder) :
    ∀ vs, validZip fs vs = true →
    ∃ (δ : List Attr) (data : List Nat),
      (∀ attrs, encZip fs vs bo attrs = .ok (attrs ++ δ)) ∧
      δ.length = ((fs.map fmtOfF).flatten).length ∧
      structPack bo ((fs.map fmtOfF).flatten) δ = some data ∧
      data.length = fmtSize ((fs.map fmtOfF).flatten) ∧
      (∀ rest, decZip fs (unpackPieces bo ((fs.map fmtOfF).flatten) data ++ rest) bo
        = .ok (vs, rest)) := by
  induction fs with
  | nil =>
      intro vs hz
      cases vs with
      | nil =>
          refine ⟨[], [], ?_, ?_, ?_, ?_, ?_⟩
          · intro attrs
            rw [encZip]
            simp
          · simp
          · simp [structPack]
          · simp [fmtSize]
          · intro rest
            rw [decZip]
            simp [unpackPieces]
      | cons _ _ => simp [validZip] at hz
  | cons t' ts ihts =>
      intro vs hz
      cases vs with
      | nil => simp [validZip] at hz
      | cons v' vs'' =>
          rw [validZip, Bool.and_eq_true] at hz
          obtain ⟨δ₁, data₁, he₁, hl₁, hp₁, hd₁, hdec₁⟩ := fieldRoundTrip t' v' bo hz.1
          obtain ⟨δ₂, data₂, he₂, hl₂, hp₂, hd₂, hdec₂⟩ := ihts vs'' hz.2
          refine ⟨δ₁ ++ δ₂, data₁ ++ data₂, ?_, ?_, ?_, ?_, ?_⟩
          · intro attrs
            rw [encZip, he₁ attrs]
            simp only [except_bind_ok]
            rw [he₂ (attrs ++ δ₁), List.append_assoc]
          · simp only [List.map_cons, List.flatten_cons, List.length_append]
            omega
          · rw [List.map_cons, List.flatten_cons,
              structPack_append bo _ _ δ₁ δ₂ hl₁, hp₁, hp₂]
            rfl
          · rw [List.map_cons, List.flatten_cons, fmtSize_append]
            simp only [List.length_append]
            omega
          · intro rest
            rw [List.map_cons, List.flatten_cons,
              unpackPieces_append bo _ _ data₁ data₂ hd₁, List.append_assoc]
            simp only [decZip]
            rw [hdec₁ _]
            simp only [except_bind_ok]
            rw [hdec₂ rest]
            rfl

/-- The record encoder splits at a field-list boundary when the first part of
the value list has matching arity. -/
theorem encZip_append (bo : PyByteOrder) (fs1 fs2 : List FieldTy)
    (vs1 vs2 : List Value) (h : vs1.length = fs1.length) (attrs : List Attr) :
    encZip (fs1 ++ fs2) (vs1 ++ vs2) bo attrs = (do
      let a ← encZip fs1 vs1 bo attrs
      encZip fs2 vs2 bo a) := by
  induction fs1 generalizing vs1 attrs with
  | nil =>
      cases vs1 with
      | nil => simp [encZip]
      | cons _ _ => simp at h
  | cons t ts ih =>
      cases vs1 with
      | nil => simp at h
      | cons v vs =>
          simp at h
          simp only [List.cons_append, encZip]
          cases he : encF t v bo attrs with
          | error e => simp [he]
          | ok a => simp [he, ih vs (by omega) a]

/-- The record decoder splits at a field-list boundary. -/
theorem decZip_append (bo : PyByteOrder) (fs1 fs2 : List FieldTy)
    (attrs : List Attr) :
    decZip (fs1 ++ fs2) attrs bo = (do
      let (v1, r) ← decZip fs1 attrs bo
      let (v2, r2) ← decZip fs2 r bo
      Except.ok (v1 ++ v2, r2)) := by
  induction fs1 generalizing attrs with
  | nil =>
      cases hz : decZip fs2 attrs bo with
      | error e => simp [decZip, hz]
      | ok z => simp [decZip, hz]
  | cons t ts ih =>
      simp only [List.cons_append, decZip]
      cases hd : decF t attrs bo with
      | error e => simp [hd]
      | ok vr =>
          simp only [hd, except_bind_ok]
          rw [ih vr.2]
          cases hz : decZip ts vr.2 bo with
          | error e => simp [hz]
          | ok z =>
              simp only [hz, except_bind_ok]
              cases hz2 : decZip fs2 z.2 bo with
              | error e => simp
              | ok z2 => simp

/-- A successfully packed slot has its code's size. -/
theorem packOne_length (bo : PyByteOrder) (c : FmtCode) (a : Attr)
    (piece : List Nat) (h : packOne bo c a = some piece) :
    piece.length = codeSize c := by
  cases c <;> cases a <;> simp [packOne] at h <;> try subst h
  case fBool.abool b => simp [codeSize]
  case fBool.aint n => simp [codeSize]
  case fBool.abytes bs => simp [codeSize]
  case fUInt.abool w b => simp [codeSize, orderBytes_length, natToLE_length]
  case fUInt.aint w n =>
      obtain ⟨⟨h1, h2⟩, h3⟩ := h
      subst h3
      simp [codeSize, orderBytes_length, natToLE_length]
  case fSInt.abool w b => simp [codeSize, orderBytes_length, natToLE_length]
  case fSInt.aint w n =>
      obtain ⟨⟨h1, h2⟩, h3⟩ := h
      subst h3
      simp [codeSize, orderBytes_length, natToLE_length]
  case fBytes.abytes n bs =>
      simp [codeSize]
      omega

/-- A successful `pack` produces exactly the format's byte size. -/
theorem structPack_some_length (bo : PyByteOrder) (fmt : List FmtCode) :
    ∀ (attrs : List Attr) (data : List Nat),
    structPack bo fmt attrs = some data → data.length = fmtSize fmt := by
  induction fmt with
  | nil =>
      intro attrs data h
      cases attrs with
      | nil =>
          simp [structPack] at h
          subst h
          simp [fmtSize]
      | cons _ _ => simp [structPack] at h
  | cons c cs ih =>
      intro attrs data h
      cases attrs with
      | nil => simp [structPack] at h
      | cons a as =>
          simp only [structPack] at h
          cases hp : packOne bo c a with
          | none => rw [hp] at h; simp at h
          | some piece =>
              rw [hp] at h
              cases hq : structPack bo cs as with
              | none => rw [hq] at h; simp at h
              | some rest =>
                  rw [hq] at h
                  simp at h
                  subst h
                  rw [fmtSize_cons, List.length_append,
                    packOne_length bo c a piece hp, ih as rest hq]

end BStruct

namespace BStruct

/-- Top-level encode of a valid record value succeeds with the record's byte
size, and decoding restores the value. -/
theorem encode_decode_valid (S : List FieldTy) (vs : List Value)
    (bo : PyByteOrder) (hv : validF (.tStruct S) (.vStruct vs) = true) :
    ∃ data, encode S vs bo = .ok data ∧ data.length = byteSize S ∧
      decode S data bo = .ok (.vStruct vs) := by
  obtain ⟨δ, data, he, hl, hp, hd, hdec⟩ :=
    fieldRoundTrip (.tStruct S) (.vStruct vs) bo hv
  refine ⟨data, ?_, hd, ?_⟩
  · simp only [encode, he [], List.nil_append, except_bind_ok, structFormat]
    rw [hp]
  · have h2 := hdec []
    rw [List.append_nil] at h2
    simp only [decode, structUnpack, structFormat, hd, if_pos, h2]

/-- A successful top-level encode produces exactly `byte_size` bytes. -/
theorem encode_ok_length (S : List FieldTy) (vs : List Value)
    (bo : PyByteOrder) (data : List Nat) (h : encode S vs bo = .ok data) :
    data.length = byteSize S := by
  simp only [encode] at h
  cases he : encF (.tStruct S) (.vStruct vs) bo [] with
  | error e => rw [he] at h; simp at h
  | ok attrs =>
      rw [he] at h
      simp only [except_bind_ok] at h
      cases hp : structPack bo (structFormat S) attrs with
      | none => rw [hp] at h; simp at h
      | some d =>
          rw [hp] at h
          simp at h
          subst h
          exact structPack_some_length bo (structFormat S) attrs d hp

/-- Record encode in general position: the fields before and after a
distinguished field encode around it, the distinguished field contributing
its own packed bytes at its offset. -/
theorem structMiddle (pre post : List FieldTy) (t : FieldTy)
    (vpre vpost : List Value) (v : Value) (bo : PyByteOrder)
    (hpre : validZip pre vpre = true) (hpost : validZip post vpost = true)
    (δt : List Attr) (datat : List Nat)
    (het : ∀ attrs, encF t v bo attrs = .ok (attrs ++ δt))
    (hlt : δt.length = (fmtOfF t).length)
    (hpt : structPack bo (fmtOfF t) δt = some datat) :
    ∃ (dpre dpost : List Nat),
      encode (pre ++ t :: post) (vpre ++ v :: vpost) bo
        = .ok (dpre ++ (datat ++ dpost)) ∧
      dpre.length = fmtSize ((pre.map fmtOfF).flatten) ∧
      dpost.length = fmtSize ((post.map fmtOfF).flatten) ∧
      (∀ rest, decZip pre (unpackPieces bo ((pre.map fmtOfF).flatten) dpre ++ rest) bo
        = .ok (vpre, rest)) ∧
      (∀ rest, decZip post (unpackPieces bo ((post.map fmtOfF).flatten) dpost ++ rest) bo
        = .ok (vpost, rest)) := by
  obtain ⟨δpre, dpre, hepre, hlpre, hppre, hdpre, hdecpre⟩ := encZipRoundTrip pre bo vpre hpre
  obtain ⟨δpost, dpost, hepost, hlpost, hppost, hdpost, hdecpost⟩ :=
    encZipRoundTrip post bo vpost hpost
  have hlenpre := validZip_length pre vpre hpre
  have hlenpost := validZip_length post vpost hpost
  refine ⟨dpre, dpost, ?_, hdpre, hdpost, hdecpre, hdecpost⟩
  have hzip : encZip (pre ++ t :: post) (vpre ++ v :: vpost) bo []
      = .ok (δpre ++ (δt ++ δpost)) := by
    rw [encZip_append bo pre (t :: post) vpre (v :: vpost) hlenpre, hepre []]
    simp only [List.nil_append, except_bind_ok, encZip]
    rw [het δpre]
    simp only [except_bind_ok]
    rw [hepost (δpre ++ δt), List.append_assoc]
  have hfmt : structFormat (pre ++ t :: post)
      = (pre.map fmtOfF).flatten ++ (fmtOfF t ++ (post.map fmtOfF).flatten) := by
    rw [structFormat, fmtOfF_tStruct]
    simp
  have hlen2 : (vpre ++ v :: vpost).length = (pre ++ t :: post).length := by
    simp [hlenpre, hlenpost]
  simp only [encode, encF, if_pos hlen2, hzip, except_bind_ok, hfmt]
  rw [structPack_append bo _ _ δpre (δt ++ δpost) (by omega),
    structPack_append bo _ _ δt δpost (by omega), hppre, hpt, hppost]
  rfl

/-- Record decode in general position when the distinguished field's decoder
succeeds. -/
theorem decodeMiddle_ok (pre post : List FieldTy) (t : FieldTy)
    (bo : PyByteOrder) (dpre datat dpost : List Nat)
    (vpre vpost : List Value) (w : Value)
    (hlpre : dpre.length = fmtSize ((pre.map fmtOfF).flatten))
    (hlt : datat.length = fmtSize (fmtOfF t))
    (hdecpre : ∀ rest, decZip pre (unpackPieces bo ((pre.map fmtOfF).flatten) dpre ++ rest) bo
      = .ok (vpre, rest))
    (hdecpost : ∀ rest, decZip post (unpackPieces bo ((post.map fmtOfF).flatten) dpost ++ rest) bo
      = .ok (vpost, rest))
    (hdect : ∀ rest, decF t (unpackPieces bo (fmtOfF t) datat ++ rest) bo = .ok (w, rest))
    (hlen : (dpre ++ (datat ++ dpost)).length = fmtSize (structFormat (pre ++ t :: post))) :
    decode (pre ++ t :: post) (dpre ++ (datat ++ dpost)) bo
      = .ok (.vStruct (vpre ++ w :: vpost)) := by
  have hfmt : structFormat (pre ++ t :: post)
      = (pre.map fmtOfF).flatten ++ (fmtOfF t ++ (post.map fmtOfF).flatten) := by
    rw [structFormat, fmtOfF_tStruct]
    simp
  simp only [decode, structUnpack, hlen, if_pos]
  rw [hfmt, unpackPieces_append bo _ _ dpre (datat ++ dpost) hlpre,
    unpackPieces_append bo _ _ datat dpost hlt]
  simp only [decF]
  rw [decZip_append bo pre (t :: post), hdecpre _]
  simp only [except_bind_ok, decZip]
  rw [hdect _]
  simp only [except_bind_ok]
  have h2 := hdecpost []
  rw [List.append_nil] at h2
  rw [h2]
  rfl

/-- Record decode in general position when the distinguished field's decoder
raises: the error propagates out of `decode` unwrapped. -/
theorem decodeMiddle_err (pre post : List FieldTy) (t : FieldTy)
    (bo : PyByteOrder) (dpre datat dpost : List Nat)
    (vpre : List Value) (e : PyError)
    (hlpre : dpre.length = fmtSize ((pre.map fmtOfF).flatten))
    (hlt : datat.length = fmtSize (fmtOfF t))
    (hdecpre : ∀ rest, decZip pre (unpackPieces bo ((pre.map fmtOfF).flatten) dpre ++ rest) bo
      = .ok (vpre, rest))
    (hdect : ∀ rest, decF t (unpackPieces bo (fmtOfF t) datat ++ rest) bo = .error e)
    (hlen : (dpre ++ (datat ++ dpost)).length = fmtSize (structFormat (pre ++ t :: post))) :
    decode (pre ++ t :: post) (dpre ++ (datat ++ dpost)) bo = .error e := by
  have hfmt : structFormat (pre ++ t :: post)
      = (pre.map fmtOfF).flatten ++ (fmtOfF t ++ (post.map fmtOfF).flatten) := by
    rw [structFormat, fmtOfF_tStruct]
    simp
  simp only [decode, structUnpack, hlen, if_pos]
  rw [hfmt, unpackPieces_append bo _ _ dpre (datat ++ dpost) hlpre,
    unpackPieces_append bo _ _ datat dpost hlt]
  simp only [decF]
  rw [decZip_append bo pre (t :: post), hdecpre _]
  simp only [except_bind_ok, decZip]
  rw [hdect _]
  rfl

/-- Record encode in general position when the distinguished field's encoder
raises: the error propagates out of `encode` unwrapped (the `BstructError`
wrapping covers only the packing step). -/
theorem encodeMiddle_err (pre post : List FieldTy) (t : FieldTy)
    (vpre vpost : List Value) (v : Value) (bo : PyByteOrder) (e : PyError)
    (hpre : validZip pre vpre = true)
    (hlenpost : vpost.length = post.length)
    (het : ∀ attrs, encF t v bo attrs = .error e) :
    encode (pre ++ t :: post) (vpre ++ v :: vpost) bo = .error e := by
  obtain ⟨δpre, dpre, hepre, hlpre, hppre, hdpre, hdecpre⟩ :=
    encZipRoundTrip pre bo vpre hpre
  have hlenpre := validZip_length pre vpre hpre
  have hlen2 : (vpre ++ v :: vpost).length = (pre ++ t :: post).length := by
    simp [hlenpre, hlenpost]
  have hzip : encZip (pre ++ t :: post) (vpre ++ v :: vpost) bo [] = .error e := by
    rw [encZip_append bo pre (t :: post) vpre (v :: vpost) hlenpre, hepre []]
    simp only [List.nil_append, except_bind_ok, encZip]
    rw [het δpre]
    simp only [except_bind_error]
  simp only [encode, encF, if_pos hlen2, hzip, except_bind_error]

end BStruct

namespace BStruct

/-! ## `decode_all` lemmas -/

theorem decodeAllGo_concat (S : List FieldTy) (bo : PyByteOrder) :
    ∀ (lvs : List (List Value)) (datas : List (List Nat)),
      List.Forall₂ (fun vs data => validF (.tStruct S) (.vStruct vs) = true ∧
        encode S vs bo = .ok data) lvs datas →
      decodeAllGo S bo lvs.length datas.flatten = (lvs.map Value.vStruct, none) := by
  intro lvs datas hfa
  induction hfa with
  | nil => simp [decodeAllGo]
  | cons hpair hrest ih =>
      rename_i vs data lvs' datas'
      obtain ⟨hv, henc⟩ := hpair
      have hdl : data.length = byteSize S := encode_ok_length S vs bo data henc
      obtain ⟨δ, data', he, hl, hp, hd, hdec⟩ :=
        fieldRoundTrip (.tStruct S) (.vStruct vs) bo hv
      have hdata : data' = data := by
        have henc2 : encode S vs bo = .ok data' := by
          simp only [encode, he [], List.nil_append, except_bind_ok, structFormat]
          rw [hp]
        rw [henc2] at henc
        simpa using henc
      have h2 := hdec []
      rw [List.append_nil, hdata] at h2
      simp only [List.length_cons, List.flatten_cons, decodeAllGo]
      rw [List.take_append_of_le_length (le_of_eq hdl.symm),
        List.take_of_length_le (le_of_eq hdl)]
      have h2' : decF (.tStruct S) (unpackPieces bo (structFormat S) data) bo
          = .ok (.vStruct vs, []) := h2
      rw [h2']
      rw [List.drop_append_of_le_length (le_of_eq hdl.symm),
        List.drop_of_length_le (le_of_eq hdl)]
      simp [ih]

theorem decodeAll_concat (S : List FieldTy) (bo : PyByteOrder)
    (hpos : 0 < byteSize S)
    (lvs : List (List Value)) (datas : List (List Nat))
    (hfa : List.Forall₂ (fun vs data => validF (.tStruct S) (.vStruct vs) = true ∧
      encode S vs bo = .ok data) lvs datas) :
    decodeAll S datas.flatten bo = (lvs.map Value.vStruct, none) := by
  have htot : datas.flatten.length = lvs.length * byteSize S := by
    induction hfa with
    | nil => simp
    | cons hpair hrest ih =>
        rename_i vs data lvs' datas'
        simp only [List.flatten_cons, List.length_append, List.length_cons, ih]
        rw [encode_ok_length S vs bo data hpair.2]
        ring
  rw [decodeAll, if_neg (by omega), if_neg (by rw [htot]; simp [Nat.mul_mod_left]),
    htot, Nat.mul_div_cancel _ hpos]
  exact decodeAllGo_concat S bo lvs datas hfa

/-- A buffer whose length is not a multiple of the record size is rejected
before any record is yielded. -/
theorem decodeAll_bad_length (S : List FieldTy) (data : List Nat)
    (bo : PyByteOrder) (h : data.length % byteSize S ≠ 0) :
    decodeAll S data bo = ([], some .bstructError) := by
  by_cases h0 : byteSize S = 0
  · rw [decodeAll, if_pos h0]
  · rw [decodeAll, if_neg h0, if_pos h]

end BStruct

namespace BStruct

/-! ## Enum and string field lemmas for the error paths -/

/-- An in-range integer that is not a member of the enum encodes fine (the
enum reuses the underlying integer encoder unchanged, with no membership
check), but decoding raises `ValueError` from the enum constructor. -/
theorem enumFieldInvalid (members : List Int) (u : IntEnc) (k : Int)
    (bo : PyByteOrder) (hmem : k ∉ members) (hrange : inRangeIntEnc u k = true) :
    ∃ (δ : List Attr) (data : List Nat),
      (∀ attrs, encF (.tEnum members u) (.vInt k) bo attrs = .ok (attrs ++ δ)) ∧
      δ.length = (fmtOfF (.tEnum members u)).length ∧
      structPack bo (fmtOfF (.tEnum members u)) δ = some data ∧
      data.length = fmtSize (fmtOfF (.tEnum members u)) ∧
      (∀ rest,
        decF (.tEnum members u) (unpackPieces bo (fmtOfF (.tEnum members u)) data ++ rest) bo
          = .error .valueError) := by
  cases u with
  | native s w =>
      cases s with
      | false =>
          simp [inRangeIntEnc] at hrange
          refine ⟨[.aint k], orderBytes bo (natToLE w k.toNat), ?_, ?_, ?_, ?_, ?_⟩
          · intro attrs
            rw [encF]
            simp [rawEncode, toAttr]
          · rw [fmtOfF]; rfl
          · rw [fmtOfF]
            simp [intEncFmt, structPack, packOne, hrange.1, hrange.2]
          · rw [fmtOfF, fmtSize_single]
            simp [intEncFmt, codeSize, orderBytes_length, natToLE_length]
          · intro rest
            rw [fmtOfF]
            rw [unpackPieces_single bo _ _
              (by simp [intEncFmt, codeSize, orderBytes_length, natToLE_length]), decF]
            have castN : ((2 ^ (8 * w) : Nat) : Int) = 2 ^ (8 * w) := by
              push_cast; ring
            have hkN : k.toNat < 2 ^ (8 * w) := by omega
            have hn : leToNat (orderBytes bo (orderBytes bo (natToLE w k.toNat)))
                = k.toNat := by
              rw [orderBytes_orderBytes, leToNat_natToLE w _ hkN]
            have hk : (k.toNat : Int) = k := by omega
            simp [intEncFmt, unpackOne, hn, decodeEnum, hk, hmem]
      | true =>
          simp [inRangeIntEnc] at hrange
          obtain ⟨hw, h0, h1⟩ := hrange
          refine ⟨[.aint k],
            orderBytes bo (natToLE w (k % (2 ^ (8 * w) : Int)).toNat), ?_, ?_, ?_, ?_, ?_⟩
          · intro attrs
            rw [encF]
            simp [rawEncode, toAttr]
          · rw [fmtOfF]; rfl
          · rw [fmtOfF]
            simp [intEncFmt, structPack, packOne, h0, h1]
          · rw [fmtOfF, fmtSize_single]
            simp [intEncFmt, codeSize, orderBytes_length, natToLE_length]
          · intro rest
            rw [fmtOfF]
            rw [unpackPieces_single bo _ _
              (by simp [intEncFmt, codeSize, orderBytes_length, natToLE_length]), decF]
            simp [intEncFmt, unpackOne, intFromBytes_signed bo w k hw h0 h1,
              decodeEnum, hmem]
  | big s n =>
      cases s with
      | false =>
          simp [inRangeIntEnc] at hrange
          refine ⟨[.abytes (orderBytes bo (natToLE n k.toNat))],
            orderBytes bo (natToLE n k.toNat), ?_, ?_, ?_, ?_, ?_⟩
          · intro attrs
            rw [encF]
            simp [encodeBig, valueInt?, intToBytes, hrange.1, hrange.2]
          · rw [fmtOfF]; rfl
          · rw [fmtOfF]
            have hl : (orderBytes bo (natToLE n k.toNat)).length = n := by
              simp [orderBytes_length, natToLE_length]
            simp [intEncFmt, structPack, packOne,
              List.take_of_length_le (le_of_eq hl), hl]
          · rw [fmtOfF, fmtSize_single]
            simp [intEncFmt, codeSize, orderBytes_length, natToLE_length]
          · intro rest
            rw [fmtOfF]
            rw [unpackPieces_single bo _ _
              (by simp [intEncFmt, codeSize, orderBytes_length, natToLE_length]), decF]
            simp [intEncFmt, unpackOne, decodeEnum,
              intFromBytes_unsigned bo n k hrange.1 hrange.2, hmem]
      | true =>
          simp [inRangeIntEnc] at hrange
          obtain ⟨hw, h0, h1⟩ := hrange
          refine ⟨[.abytes (orderBytes bo (natToLE n (k % (2 ^ (8 * n) : Int)).toNat))],
            orderBytes bo (natToLE n (k % (2 ^ (8 * n) : Int)).toNat), ?_, ?_, ?_, ?_, ?_⟩
          · intro attrs
            rw [encF]
            simp [encodeBig, valueInt?, intToBytes, h0, h1]
          · rw [fmtOfF]; rfl
          · rw [fmtOfF]
            have hl : (orderBytes bo (natToLE n (k % (2 ^ (8 * n) : Int)).toNat)).length
                = n := by
              simp [orderBytes_length, natToLE_length]
            simp [intEncFmt, structPack, packOne,
              List.take_of_length_le (le_of_eq hl), hl]
          · rw [fmtOfF, fmtSize_single]
            simp [intEncFmt, codeSize, orderBytes_length, natToLE_length]
          · intro rest
            rw [fmtOfF]
            rw [unpackPieces_single bo _ _
              (by simp [intEncFmt, codeSize, orderBytes_length, natToLE_length]), decF]
            simp [intEncFmt, unpackOne, decodeEnum,
              intFromBytes_signed bo n k hw h0 h1, hmem]

/-- A fitting string field with arbitrary (possibly NUL-terminated) content:
encode succeeds and decode returns the string with its trailing NUL code
points removed. -/
theorem strFieldNul (n : Nat) (cs : List Nat) (bo : PyByteOrder)
    (hscal : ∀ c ∈ cs, isScalar c = true)
    (hfit : (utf8Encode cs).length ≤ n) :
    ∃ (δ : List Attr) (data : List Nat),
      (∀ attrs, encF (.tStr n) (.vStr cs) bo attrs = .ok (attrs ++ δ)) ∧
      δ.length = (fmtOfF (.tStr n)).length ∧
      structPack bo (fmtOfF (.tStr n)) δ = some data ∧
      data.length = fmtSize (fmtOfF (.tStr n)) ∧
      (∀ rest, decF (.tStr n) (unpackPieces bo (fmtOfF (.tStr n)) data ++ rest) bo
        = .ok (.vStr (rstripNulCP cs), rest)) := by
  have hall : cs.all isScalar = true := by
    rw [List.all_eq_true]
    intro c hc
    exact hscal c hc
  refine ⟨[.abytes (utf8Encode cs)],
    utf8Encode cs ++ List.replicate (n - (utf8Encode cs).length) 0, ?_, ?_, ?_, ?_, ?_⟩
  · intro attrs
    rw [encF]
    simp [encodeStr, hall]
  · rw [fmtOfF]; rfl
  · rw [fmtOfF]
    simp [structPack, packOne, List.take_of_length_le hfit]
  · rw [fmtOfF, fmtSize_single]
    simp [codeSize]
    omega
  · intro rest
    rw [fmtOfF, unpackPieces_single bo _ _ (by simp [codeSize]; omega), decF]
    have hdec := utf8_slot_decode cs (n - (utf8Encode cs).length) hscal
    simp [unpackOne, decodeStr, hdec]

/-- Stripping is the identity exactly on strings that do not end in NUL. -/
theorem rstripNulCP_eq_self_iff (cs : List Nat) :
    rstripNulCP cs = cs ↔ cs.getLastD 1 ≠ 0 := by
  constructor
  · intro h
    rw [← h]
    exact rstripNulCP_getLastD cs
  · intro h
    rw [rstripNulCP_eq_rstripZeros, rstripZeros_of_getLastD cs h]

end BStruct

namespace BStruct

/-! ## The codec-mismatch configuration error (`_resolve_simple_encoding`) -/

/-- A Python type, as relevant to codec targeting. -/
inductive PyType where
  | tyBool
  | tyInt
  | tyStr
  | tyBytes
  | tyDecimal
  | tyOther (id : Nat)
deriving DecidableEq, Repr

/-- An encoding object appearing in field metadata: its target type and an
object identity (standing for the object's `repr`, which is what an f-string
`{data}` interpolation renders). -/
structure EncodingTok where
  target : PyType
  objId : Nat
deriving DecidableEq, Repr

/-- One metadata item: an encoding object, or any other annotation object. -/
inductive MetaItem where
  | enc (e : EncodingTok)
  | other (id : Nat)
deriving DecidableEq, Repr

/-- A fragment of an error message: literal text, the `repr` of an encoding
object (an `{data}` interpolation), or the name of a type (a
`{data.target}` interpolation). -/
inductive MsgTok where
  | text (s : String)
  | encObj (e : EncodingTok)
  | tyName (t : PyType)
deriving DecidableEq, Repr

/-- Result of `_resolve_simple_encoding`: the matched encoding, or a
`TypeError` carrying its message. -/
inductive ResolveResult where
  | ok (e : EncodingTok)
  | typeError (msg : List MsgTok)
deriving DecidableEq, Repr

/-- `_resolve_simple_encoding(target, metadata)`: scan the metadata for the
first encoding object; if its target is not the declared type, raise a
`TypeError` whose message interpolates `{data}` (the encoding object itself)
in the expected slot and `{data.target}` (the codec's target type) in the
found slot; otherwise return it.  No encoding found is a `TypeError` naming
the declared type. -/
def resolveSimpleEncoding (target : PyType) : List MetaItem → ResolveResult
  | [] => .typeError [.text "Cannot find type annotation for type ", .tyName target]
  | .enc e :: _ =>
      if e.target ≠ target then
        .typeError [.text "Wrong encoding: Expected Encoding[", .encObj e,
          .text "], got \x60Encoding[", .tyName e.target, .text "]\x60"]
      else .ok e
  | .other _ :: rest => resolveSimpleEncoding target rest

/-- The types a message names. -/
def msgTypeNames : List MsgTok → List PyType
  | [] => []
  | .tyName t :: rest => t :: msgTypeNames rest
  | _ :: rest => msgTypeNames rest

/-! ## Remaining support lemmas -/

theorem validZip_append (fs1 fs2 : List FieldTy) (vs1 vs2 : List Value)
    (h : vs1.length = fs1.length) :
    validZip (fs1 ++ fs2) (vs1 ++ vs2) = (validZip fs1 vs1 && validZip fs2 vs2) := by
  induction fs1 generalizing vs1 with
  | nil =>
      cases vs1 with
      | nil => simp [validZip]
      | cons _ _ => simp at h
  | cons t ts ih =>
      cases vs1 with
      | nil => simp at h
      | cons v vs =>
          simp at h
          simp only [List.cons_append, validZip, ih vs (by omega), Bool.and_assoc]

theorem flatten_replicate_length {α : Type _} (k : Nat) (xs : List α) :
    ((List.replicate k xs).flatten).length = k * xs.length := by
  induction k with
  | zero => simp
  | succ k ih =>
      simp [List.replicate_succ, ih]
      ring

/-- The element-by-element array path over valid elements: appends one
fragment's worth of attributes per element, packs, and decodes back. -/
theorem encListRoundTrip (inner : FieldTy) (bo : PyByteOrder) :
    ∀ (l : List Value), validList inner l = true →
    ∃ (δ : List Attr) (data : List Nat),
      (∀ attrs, encList inner l bo attrs = .ok (attrs ++ δ)) ∧
      δ.length = ((List.replicate l.length (fmtOfF inner)).flatten).length ∧
      structPack bo ((List.replicate l.length (fmtOfF inner)).flatten) δ = some data ∧
      data.length = fmtSize ((List.replicate l.length (fmtOfF inner)).flatten) ∧
      (∀ rest, decList inner l.length
          (unpackPieces bo ((List.replicate l.length (fmtOfF inner)).flatten) data ++ rest) bo
        = .ok (l, rest)) := by
  intro l
  induction l with
  | nil =>
      intro _
      refine ⟨[], [], ?_, ?_, ?_, ?_, ?_⟩
      · intro attrs
        rw [encList]
        simp
      · simp
      · simp [structPack]
      · simp [fmtSize]
      · intro rest
        simp [unpackPieces, decList]
  | cons v' vs'' ihvs =>
      intro hval'
      rw [validList, Bool.and_eq_true] at hval'
      obtain ⟨δ₁, data₁, he₁, hl₁, hp₁, hd₁, hdec₁⟩ := fieldRoundTrip inner v' bo hval'.1
      obtain ⟨δ₂, data₂, he₂, hl₂, hp₂, hd₂, hdec₂⟩ := ihvs hval'.2
      refine ⟨δ₁ ++ δ₂, data₁ ++ data₂, ?_, ?_, ?_, ?_, ?_⟩
      · intro attrs
        rw [encList, he₁ attrs]
        simp only [except_bind_ok]
        rw [he₂ (attrs ++ δ₁), List.append_assoc]
      · simp only [List.length_cons, List.replicate_succ, List.flatten_cons,
          List.length_append]
        omega
      · rw [List.length_cons, List.replicate_succ, List.flatten_cons,
          structPack_append bo _ _ δ₁ δ₂ hl₁, hp₁, hp₂]
        rfl
      · rw [List.length_cons, List.replicate_succ, List.flatten_cons, fmtSize_append]
        simp only [List.length_append]
        omega
      · intro rest
        rw [List.length_cons, List.replicate_succ, List.flatten_cons,
          unpackPieces_append bo _ _ data₁ data₂ hd₁, List.append_assoc]
        simp only [decList]
        rw [hdec₁ _]
        simp only [except_bind_ok]
        rw [hdec₂ rest]
        rfl

end BStruct

namespace BStruct

/-! ## Claim-level helper lemmas -/

/-- Validity of a record assembled around one distinguished field. -/
theorem validF_middle (pre post : List FieldTy) (t : FieldTy)
    (vpre vpost : List Value) (v : Value)
    (hpre : validZip pre vpre = true) (hpost : validZip post vpost = true)
    (hv : validF t v = true) :
    validF (.tStruct (pre ++ t :: post)) (.vStruct (vpre ++ v :: vpost)) = true := by
  rw [validF, validZip_append pre (t :: post) vpre (v :: vpost)
    (validZip_length pre vpre hpre), validZip, hpre, hpost, hv]
  rfl

/-- Length of a buffer split around one distinguished field's slot bytes. -/
theorem middle_len (pre post : List FieldTy) (t : FieldTy)
    (dpre datat dpost : List Nat)
    (h1 : dpre.length = fmtSize ((pre.map fmtOfF).flatten))
    (h2 : datat.length = fmtSize (fmtOfF t))
    (h3 : dpost.length = fmtSize ((post.map fmtOfF).flatten)) :
    (dpre ++ (datat ++ dpost)).length = fmtSize (structFormat (pre ++ t :: post)) := by
  rw [structFormat, fmtOfF_tStruct]
  simp only [List.map_append, List.map_cons, List.flatten_append, List.flatten_cons]
  rw [fmtSize_append, fmtSize_append]
  simp [h1, h2, h3]

/-! ## The claims -/

/-- C1: for every record schema `S`, every value whose fields are valid for
their declared encodings, and every byte order, decoding the encoding
returns the original value: `decode(S, encode(v, b), b) = v`. -/
theorem c1_encode_decode_round_trip (S : List FieldTy) (vs : List Value)
    (bo : PyByteOrder)
    (hv : validF (.tStruct S) (.vStruct vs) = true) :
    (encode S vs bo).bind (fun data => decode S data bo)
      = .ok (.vStruct vs) := by
  obtain ⟨data, he, _, hd⟩ := encode_decode_valid S vs bo hv
  rw [he]
  exact hd

theorem c1_encode_decode_round_trip_witness :
    validF (.tStruct [.tBool, .tUInt 2, .tStr 3])
        (.vStruct [.vBool true, .vInt 513, .vStr [65, 66]]) = true ∧
    (encode [.tBool, .tUInt 2, .tStr 3]
        [.vBool true, .vInt 513, .vStr [65, 66]] .little).bind
      (fun data => decode [.tBool, .tUInt 2, .tStr 3] data .little)
      = .ok (.vStruct [.vBool true, .vInt 513, .vStr [65, 66]]) := by
  have hv : validF (.tStruct [.tBool, .tUInt 2, .tStr 3])
      (.vStruct [.vBool true, .vInt 513, .vStr [65, 66]]) = true := by
    simp [validF, validZip, isScalar, utf8Encode, utf8EncodeChar]
  exact ⟨hv, c1_encode_decode_round_trip _ _ _ hv⟩

/-- C7: for an array field whose inner encoding is the identity
pass-through (`inner_encode == _raw_encode`), the bulk-append path
(`_encode_native_list`) produces exactly the same sink contents as the
general element-by-element path, and the array field encoder takes either
path with the same result. -/
theorem c7_bulk_append_equiv (inner : FieldTy) (hraw : isRawEnc inner = true)
    (len : Nat) (vs : List Value) (bo : PyByteOrder) (attrs : List Attr) :
    Except.ok (encodeNativeList vs attrs) = encList inner vs bo attrs ∧
    encF (.tArray inner len) (.vList vs) bo attrs = encList inner vs bo attrs := by
  constructor
  · rw [encList_raw inner hraw vs bo attrs, encodeNativeList]
  · exact encF_array_eq_encList inner len vs bo attrs

theorem c7_bulk_append_equiv_witness :
    isRawEnc (.tUInt 1) = true ∧
    (Except.ok (encodeNativeList [.vInt 7, .vInt 9] [])
        = encList (.tUInt 1) [.vInt 7, .vInt 9] .little [] ∧
     encF (.tArray (.tUInt 1) 2) (.vList [.vInt 7, .vInt 9]) .little []
        = encList (.tUInt 1) [.vInt 7, .vInt 9] .little []) :=
  ⟨by decide, c7_bulk_append_equiv (.tUInt 1) (by decide) 2 [.vInt 7, .vInt 9] .little []⟩

/-- C9: the claim says a codec annotation whose target differs from the
declared type raises a configuration error naming both the expected target
(the declared type) and the found target.  The code's message interpolates
the encoding object (`{data}`) and the codec's own target (`{data.target}`),
so the declared type is never named: resolving declared type `str` against a
codec targeting `int` produces a message whose named types are exactly
`[int]`, with `str` absent — the repository's own test expects
"Expected Encoding[str]" and fails. -/
theorem c9_wrong_encoding_message :
    resolveSimpleEncoding .tyStr [.enc ⟨.tyInt, 0⟩]
      = .typeError [.text "Wrong encoding: Expected Encoding[", .encObj ⟨.tyInt, 0⟩,
          .text "], got \x60Encoding[", .tyName .tyInt, .text "]\x60"] ∧
    msgTypeNames [.text "Wrong encoding: Expected Encoding[", .encObj ⟨.tyInt, 0⟩,
          .text "], got \x60Encoding[", .tyName .tyInt, .text "]\x60"] = [.tyInt] ∧
    PyType.tyStr ∉ msgTypeNames [.text "Wrong encoding: Expected Encoding[",
          .encObj ⟨.tyInt, 0⟩, .text "], got \x60Encoding[", .tyName .tyInt,
          .text "]\x60"] := by
  refine ⟨?_, by decide, by decide⟩
  rw [resolveSimpleEncoding]
  simp

end BStruct

namespace BStruct

/-- A 128-bit unsigned field value one past the top of the range: `encode`
fails, but with `OverflowError` (raised by `int.to_bytes` outside the
`try` around the packer), not the uniform `BstructError`. -/
theorem c2_big_int_overflow_counterexample :
    encode [.tUBig 16] [.vInt (2 ^ 128)] .little = .error .overflowError ∧
    PyError.overflowError ≠ PyError.bstructError := by
  refine ⟨?_, by decide⟩
  have h : ¬((0 : Int) ≤ 2 ^ 128 ∧ (2 : Int) ^ 128 < 2 ^ (8 * 16)) := by decide
  simp [encode, encF, encZip, encodeBig, valueInt?, intToBytes, h]

/-- C2 (amended): encoding a record whose `u128/u256/i128/i256` field value
does not fit the slot for its signedness fails, but the failure escapes as
`OverflowError` from `int.to_bytes` — the field encoders run outside the
`try` block of `encode`, so the error is not the uniform `BstructError`. -/
theorem c2_big_int_overflow (pre post : List FieldTy) (n : Nat) (sgn : Bool)
    (x : Int) (vpre vpost : List Value) (bo : PyByteOrder)
    (hpre : validZip pre vpre = true)
    (hlenpost : vpost.length = post.length)
    (hxu : sgn = false → ¬(0 ≤ x ∧ x < 2 ^ (8 * n)))
    (hxs : sgn = true → ¬(-(2 ^ (8 * n - 1)) ≤ x ∧ x < 2 ^ (8 * n - 1))) :
    encode (pre ++ (if sgn then FieldTy.tSBig n else .tUBig n) :: post)
        (vpre ++ .vInt x :: vpost) bo = .error .overflowError ∧
    PyError.overflowError ≠ PyError.bstructError := by
  refine ⟨?_, by decide⟩
  cases sgn with
  | false =>
      have hty : (if false then FieldTy.tSBig n else .tUBig n) = .tUBig n := rfl
      rw [hty]
      refine encodeMiddle_err pre post _ vpre vpost _ bo _ hpre hlenpost ?_
      intro attrs
      rw [encF]
      simp [encodeBig, valueInt?, intToBytes, hxu rfl]
  | true =>
      have hty : (if true then FieldTy.tSBig n else .tUBig n) = .tSBig n := rfl
      rw [hty]
      refine encodeMiddle_err pre post _ vpre vpost _ bo _ hpre hlenpost ?_
      intro attrs
      rw [encF]
      simp [encodeBig, valueInt?, intToBytes, hxs rfl]

theorem c2_big_int_overflow_witness :
    (¬(-((2 : Int) ^ (8 * 16 - 1)) ≤ -(2 ^ 127) - 1 ∧
        (-(2 ^ 127) - 1 : Int) < 2 ^ (8 * 16 - 1))) ∧
    (encode [FieldTy.tSBig 16] [.vInt (-(2 ^ 127) - 1)] .big
        = .error .overflowError ∧
     PyError.overflowError ≠ PyError.bstructError) :=
  ⟨by decide,
   c2_big_int_overflow [] [] 16 true (-(2 ^ 127) - 1) [] [] .big
     (by simp [validZip]) rfl (by simp) (fun _ => by decide)⟩

/-- C5: with a record of positive byte size, `decode_all` of the
concatenation of encodings of `v1..vk` yields exactly `[v1, ..., vk]` in
order with no terminating error, and any buffer whose length is not a
multiple of the record size is rejected with `BstructError` before any
record is yielded. -/
theorem c5_decode_all_stream (S : List FieldTy) (bo : PyByteOrder)
    (hpos : 0 < byteSize S)
    (lvs : List (List Value)) (datas : List (List Nat))
    (hfa : List.Forall₂ (fun vs data =>
      validF (.tStruct S) (.vStruct vs) = true ∧ encode S vs bo = .ok data)
      lvs datas)
    (bad : List Nat) (hbad : bad.length % byteSize S ≠ 0) :
    decodeAll S datas.flatten bo = (lvs.map Value.vStruct, none) ∧
    decodeAll S bad bo = ([], some .bstructError) :=
  ⟨decodeAll_concat S bo hpos lvs datas hfa,
   decodeAll_bad_length S bad bo hbad⟩

theorem c5_decode_all_stream_witness :
    0 < byteSize [FieldTy.tUInt 2] ∧
    (validF (.tStruct [.tUInt 2]) (.vStruct [.vInt 1]) = true ∧
      encode [.tUInt 2] [.vInt 1] .little = .ok [1, 0]) ∧
    (validF (.tStruct [.tUInt 2]) (.vStruct [.vInt 2]) = true ∧
      encode [.tUInt 2] [.vInt 2] .little = .ok [2, 0]) ∧
    (validF (.tStruct [.tUInt 2]) (.vStruct [.vInt 3]) = true ∧
      encode [.tUInt 2] [.vInt 3] .little = .ok [3, 0]) ∧
    (5 : Nat) % byteSize [FieldTy.tUInt 2] ≠ 0 ∧
    (decodeAll [.tUInt 2] ([[1, 0], [2, 0], [3, 0]] : List (List Nat)).flatten .little
        = ([[Value.vInt 1], [.vInt 2], [.vInt 3]].map Value.vStruct, none) ∧
     decodeAll [.tUInt 2] [9, 9, 9, 9, 9] .little = ([], some .bstructError)) := by
  have hsz : byteSize [FieldTy.tUInt 2] = 2 := by
    simp [byteSize, structFormat, fmtOfF_tStruct, fmtOfF, fmtSize, codeSize]
  have hv1 : validF (.tStruct [.tUInt 2]) (.vStruct [.vInt 1]) = true := by
    simp [validF, validZip]
  have hv2 : validF (.tStruct [.tUInt 2]) (.vStruct [.vInt 2]) = true := by
    simp [validF, validZip]
  have hv3 : validF (.tStruct [.tUInt 2]) (.vStruct [.vInt 3]) = true := by
    simp [validF, validZip]
  have he1 : encode [.tUInt 2] [.vInt 1] .little = .ok [1, 0] := by
    simp [encode, encF, encZip, rawEncode, toAttr, structFormat, fmtOfF_tStruct,
      fmtOfF, structPack, packOne, orderBytes, natToLE]
  have he2 : encode [.tUInt 2] [.vInt 2] .little = .ok [2, 0] := by
    simp [encode, encF, encZip, rawEncode, toAttr, structFormat, fmtOfF_tStruct,
      fmtOfF, structPack, packOne, orderBytes, natToLE]
  have he3 : encode [.tUInt 2] [.vInt 3] .little = .ok [3, 0] := by
    simp [encode, encF, encZip, rawEncode, toAttr, structFormat, fmtOfF_tStruct,
      fmtOfF, structPack, packOne, orderBytes, natToLE]
  refine ⟨by rw [hsz]; decide, ⟨hv1, he1⟩, ⟨hv2, he2⟩, ⟨hv3, he3⟩,
    by rw [hsz]; decide, ?_⟩
  exact c5_decode_all_stream [.tUInt 2] .little (by rw [hsz]; decide)
    [[.vInt 1], [.vInt 2], [.vInt 3]] [[1, 0], [2, 0], [3, 0]]
    (.cons ⟨hv1, he1⟩ (.cons ⟨hv2, he2⟩ (.cons ⟨hv3, he3⟩ .nil)))
    [9, 9, 9, 9, 9] (by simp [hsz])

/-- With a zero-field record the compiled format has size 0; `encode`
happily produces the empty byte string, but `decode_all` of the
concatenation of one such encoding (the empty buffer) raises `BstructError`
at once instead of yielding the record back, refuting the unconditional
multi-record stream claim. -/
theorem c5_decode_all_stream_counterexample :
    encode [] [] .little = .ok [] ∧
    decodeAll [] [] .little = ([], some .bstructError) ∧
    (([], some PyError.bstructError) : List Value × Option PyError)
      ≠ ([Value.vStruct []], none) := by
  refine ⟨?_, ?_, by simp⟩
  · simp [encode, encF, encZip, structFormat, fmtOfF_tStruct, structPack]
  · have h0 : byteSize ([] : List FieldTy) = 0 := by
      simp [byteSize, structFormat, fmtOfF_tStruct, fmtSize]
    rw [decodeAll, if_pos h0]

end BStruct

namespace BStruct

/-- With an empty nested record as the array's inner type the inner
encoding contributes no packed slot, so an array of the wrong length (here
0 elements for a declared length of 3) is not detected: `encode` succeeds
instead of raising the claimed domain error. -/
theorem c3_array_cardinality_counterexample :
    ([] : List Value).length ≠ 3 ∧
    encode [.tArray (.tStruct []) 3] [.vList []] .little = .ok [] := by
  refine ⟨by decide, ?_⟩
  simp [encode, encF, encZip, encList, isRawEnc, structFormat, fmtOfF_tStruct,
    fmtOfF_tArray, structPack, List.replicate_succ]

/-- C3 (amended): for a fixed-length-`len` array field whose inner encoding
occupies at least one packed slot, encoding a sequence of the wrong length
raises `BstructError` (the native packer rejects the argument list), and a
sequence of exactly `len` valid elements encodes and decodes back to the
same sequence in order. -/
theorem c3_array_cardinality (pre post : List FieldTy) (inner : FieldTy)
    (len : Nat) (vpre vpost : List Value) (l : List Value) (bo : PyByteOrder)
    (hpre : validZip pre vpre = true) (hpost : validZip post vpost = true)
    (hl : validList inner l = true)
    (hslots : 0 < (fmtOfF inner).length) :
    (l.length ≠ len →
      encode (pre ++ .tArray inner len :: post) (vpre ++ .vList l :: vpost) bo
        = .error .bstructError) ∧
    (l.length = len →
      (encode (pre ++ .tArray inner len :: post) (vpre ++ .vList l :: vpost) bo).bind
        (fun data => decode (pre ++ .tArray inner len :: post) data bo)
        = .ok (.vStruct (vpre ++ .vList l :: vpost))) := by
  constructor
  · intro hne
    obtain ⟨δpre, dpre, hepre, hlpre, -, -, -⟩ := encZipRoundTrip pre bo vpre hpre
    obtain ⟨δarr, darr, hearr, hlarr, -, -, -⟩ := encListRoundTrip inner bo l hl
    obtain ⟨δpost, dpost, hepost, hlpost, -, -, -⟩ := encZipRoundTrip post bo vpost hpost
    have hlenpre := validZip_length pre vpre hpre
    have hlenpost := validZip_length post vpost hpost
    have hzip : encZip (pre ++ .tArray inner len :: post)
        (vpre ++ .vList l :: vpost) bo [] = .ok (δpre ++ (δarr ++ δpost)) := by
      rw [encZip_append bo pre (.tArray inner len :: post) vpre
        (.vList l :: vpost) hlenpre, hepre []]
      simp only [List.nil_append, except_bind_ok, encZip]
      rw [encF_array_eq_encList, hearr δpre]
      simp only [except_bind_ok]
      rw [hepost (δpre ++ δarr), List.append_assoc]
    have hlen2 : (vpre ++ .vList l :: vpost).length
        = (pre ++ .tArray inner len :: post).length := by
      simp [hlenpre, hlenpost]
    have hmul : l.length * (fmtOfF inner).length ≠ len * (fmtOfF inner).length :=
      fun h => hne (Nat.eq_of_mul_eq_mul_right hslots h)
    have hfmtlen : (δpre ++ (δarr ++ δpost)).length
        ≠ (structFormat (pre ++ .tArray inner len :: post)).length := by
      rw [structFormat, fmtOfF_tStruct]
      simp only [List.map_append, List.map_cons, List.flatten_append,
        List.flatten_cons, List.length_append]
      rw [hlpre, hlpost, hlarr, flatten_replicate_length, fmtOfF_tArray,
        flatten_replicate_length]
      revert hmul
      generalize l.length * (fmtOfF inner).length = A
      generalize len * (fmtOfF inner).length = B
      intro hmul
      omega
    simp only [encode, encF, if_pos hlen2, hzip, except_bind_ok]
    rw [structPack_length_ne bo _ _ hfmtlen]
  · intro heq
    have hv : validF (.tStruct (pre ++ .tArray inner len :: post))
        (.vStruct (vpre ++ .vList l :: vpost)) = true := by
      refine validF_middle pre post _ vpre vpost _ hpre hpost ?_
      rw [validF, hl, heq]
      simp
    obtain ⟨data, he, -, hd⟩ := encode_decode_valid _ _ bo hv
    rw [he]
    exact hd

theorem c3_array_cardinality_witness :
    validList (.tUInt 1) [.vInt 5, .vInt 6] = true ∧
    0 < (fmtOfF (.tUInt 1)).length ∧
    (([Value.vInt 5, .vInt 6].length ≠ 2 →
        encode [.tArray (.tUInt 1) 2] [.vList [.vInt 5, .vInt 6]] .little
          = .error .bstructError) ∧
     ([Value.vInt 5, .vInt 6].length = 2 →
        (encode [.tArray (.tUInt 1) 2] [.vList [.vInt 5, .vInt 6]] .little).bind
          (fun data => decode [.tArray (.tUInt 1) 2] data .little)
          = .ok (.vStruct [.vList [.vInt 5, .vInt 6]]))) := by
  have h1 : validList (.tUInt 1) [.vInt 5, .vInt 6] = true := by
    simp [validList, validF]
  have h2 : 0 < (fmtOfF (.tUInt 1)).length := by
    simp [fmtOfF]
  exact ⟨h1, h2, c3_array_cardinality [] [] (.tUInt 1) 2 [] [] [.vInt 5, .vInt 6]
    .little (by simp [validZip]) (by simp [validZip]) h1 h2⟩

/-- Decoding a one-byte unsigned enum slot holding 5, which is not a member
of the enum `{1, 2}`: the failure is `ValueError` from the `IntEnum`
constructor (propagating out of `decode` unwrapped), not the uniform
`BstructError` the claim promises. -/
theorem c4_enum_invalid_counterexample :
    decode [.tEnum [1, 2] (.native false 1)] [5] .little = .error .valueError ∧
    PyError.valueError ≠ PyError.bstructError := by
  refine ⟨?_, by decide⟩
  simp [decode, structUnpack, structFormat, fmtOfF_tStruct, fmtOfF, intEncFmt,
    fmtSize, codeSize, unpackPieces, unpackOne, decF, decZip, decodeEnum,
    leToNat, orderBytes]

/-- C4 (amended): decoding an enum field slot holding an in-range integer
that is not a member fails with `ValueError` (the enum constructor's error,
which `decode` does not wrap into `BstructError`); a slot holding a member
decodes to that member. -/
theorem c4_enum_decode (pre post : List FieldTy) (members : List Int)
    (u : IntEnc) (k : Int) (vpre vpost : List Value) (bo : PyByteOrder)
    (hpre : validZip pre vpre = true) (hpost : validZip post vpost = true)
    (hrange : inRangeIntEnc u k = true) :
    (k ∉ members →
      (encode (pre ++ .tEnum members u :: post) (vpre ++ .vInt k :: vpost) bo).bind
        (fun data => decode (pre ++ .tEnum members u :: post) data bo)
        = .error .valueError ∧ PyError.valueError ≠ PyError.bstructError) ∧
    (k ∈ members →
      (encode (pre ++ .tEnum members u :: post) (vpre ++ .vInt k :: vpost) bo).bind
        (fun data => decode (pre ++ .tEnum members u :: post) data bo)
        = .ok (.vStruct (vpre ++ .vInt k :: vpost))) := by
  constructor
  · intro hmem
    obtain ⟨δ, datat, het, hlt, hpt, hdt, hdec⟩ :=
      enumFieldInvalid members u k bo hmem hrange
    obtain ⟨dpre, dpost, henc, hlpre, hlpost, hdecpre, hdecpost⟩ :=
      structMiddle pre post _ vpre vpost _ bo hpre hpost δ datat het hlt hpt
    refine ⟨?_, by decide⟩
    rw [henc]
    exact decodeMiddle_err pre post _ bo dpre datat dpost vpre .valueError
      hlpre hdt hdecpre hdec
      (middle_len pre post _ dpre datat dpost hlpre hdt hlpost)
  · intro hmem
    have hv : validF (.tStruct (pre ++ .tEnum members u :: post))
        (.vStruct (vpre ++ .vInt k :: vpost)) = true := by
      refine validF_middle pre post _ vpre vpost _ hpre hpost ?_
      rw [validF]
      simp [hmem, hrange]
    obtain ⟨data, he, -, hd⟩ := encode_decode_valid _ _ bo hv
    rw [he]
    exact hd

theorem c4_enum_decode_witness :
    inRangeIntEnc (.native false 1) 2 = true ∧
    (((2 : Int) ∉ ([1, 2] : List Int) →
        (encode [.tEnum [1, 2] (.native false 1)] [.vInt 2] .little).bind
          (fun data => decode [.tEnum [1, 2] (.native false 1)] data .little)
          = .error .valueError ∧ PyError.valueError ≠ PyError.bstructError) ∧
     ((2 : Int) ∈ ([1, 2] : List Int) →
        (encode [.tEnum [1, 2] (.native false 1)] [.vInt 2] .little).bind
          (fun data => decode [.tEnum [1, 2] (.native false 1)] data .little)
          = .ok (.vStruct [.vInt 2]))) :=
  ⟨by decide, c4_enum_decode [] [] [1, 2] (.native false 1) 2 [] [] .little
    (by simp [validZip]) (by simp [validZip]) (by decide)⟩

end BStruct

namespace BStruct

/-- C6: a nested record field contributes the nested descriptor's whole
flattened format to the outer format, and the bytes of the outer encoding
at the nested field's byte offset (the sum of the preceding fields' sizes)
are exactly the nested record's own encoding, with no padding anywhere
(the buffer length is the sum of all fields' sizes). -/
theorem c6_nested_flattening (pre post inner : List FieldTy)
    (vpre vpost vin : List Value) (bo : PyByteOrder)
    (hpre : validZip pre vpre = true) (hpost : validZip post vpost = true)
    (hin : validZip inner vin = true) :
    structFormat (pre ++ .tStruct inner :: post)
      = structFormat pre ++ (structFormat inner ++ structFormat post) ∧
    byteSize (pre ++ .tStruct inner :: post)
      = byteSize pre + byteSize inner + byteSize post ∧
    ∃ data dnested,
      encode (pre ++ .tStruct inner :: post) (vpre ++ .vStruct vin :: vpost) bo
        = .ok data ∧
      encode inner vin bo = .ok dnested ∧
      data.length = byteSize (pre ++ .tStruct inner :: post) ∧
      (data.drop (byteSize pre)).take (byteSize inner) = dnested := by
  have hvin : validF (.tStruct inner) (.vStruct vin) = true := by
    rw [validF]
    exact hin
  obtain ⟨δt, datat, het, hlt, hpt, hdt, hdec⟩ :=
    fieldRoundTrip (.tStruct inner) (.vStruct vin) bo hvin
  obtain ⟨dpre, dpost, henc, hlpre, hlpost, -, -⟩ :=
    structMiddle pre post _ vpre vpost _ bo hpre hpost δt datat het hlt hpt
  have hfmt : structFormat (pre ++ .tStruct inner :: post)
      = structFormat pre ++ (structFormat inner ++ structFormat post) := by
    simp [structFormat, fmtOfF_tStruct]
  have hbs : byteSize (pre ++ .tStruct inner :: post)
      = byteSize pre + byteSize inner + byteSize post := by
    simp only [byteSize, hfmt, fmtSize_append]
    omega
  refine ⟨hfmt, hbs, dpre ++ (datat ++ dpost), datat, henc, ?_, ?_, ?_⟩
  · simp only [encode, het [], List.nil_append, except_bind_ok, structFormat]
    rw [hpt]
  · exact encode_ok_length _ _ bo _ henc
  · have h1 : byteSize pre = dpre.length := by
      rw [byteSize, structFormat, fmtOfF_tStruct]
      exact hlpre.symm
    have h2 : byteSize inner = datat.length := by
      rw [byteSize, structFormat]
      exact hdt.symm
    rw [h1, h2, List.drop_left, List.take_left]

theorem c6_nested_flattening_witness :
    validZip [.tUInt 1] [.vInt 7] = true ∧
    validZip [.tUInt 1, .tBool] [.vInt 8, .vBool true] = true ∧
    (structFormat [.tUInt 1, .tStruct [.tUInt 1, .tBool]]
        = structFormat [.tUInt 1]
            ++ (structFormat [.tUInt 1, .tBool] ++ structFormat []) ∧
     byteSize [.tUInt 1, .tStruct [.tUInt 1, .tBool]]
        = byteSize [.tUInt 1] + byteSize [.tUInt 1, .tBool] + byteSize [] ∧
     ∃ data dnested,
       encode [.tUInt 1, .tStruct [.tUInt 1, .tBool]]
           [.vInt 7, .vStruct [.vInt 8, .vBool true]] .little = .ok data ∧
       encode [.tUInt 1, .tBool] [.vInt 8, .vBool true] .little = .ok dnested ∧
       data.length = byteSize [.tUInt 1, .tStruct [.tUInt 1, .tBool]] ∧
       (data.drop (byteSize [.tUInt 1])).take (byteSize [.tUInt 1, .tBool])
         = dnested) := by
  have ha : validZip [.tUInt 1] [.vInt 7] = true := by
    simp [validZip, validF]
  have hb : validZip [.tUInt 1, .tBool] [.vInt 8, .vBool true] = true := by
    simp [validZip, validF]
  exact ⟨ha, hb, c6_nested_flattening [.tUInt 1] [] [.tUInt 1, .tBool]
    [.vInt 7] [] [.vInt 8, .vBool true] .little ha (by simp [validZip]) hb⟩

/-- C10: a fixed-size text field is written as its UTF-8 bytes zero-padded
to the slot, and `decode` strips all trailing zero bytes before UTF-8
decoding; hence the round trip returns the string with all trailing NUL
code points removed, and restores it exactly iff it does not end in NUL. -/
theorem c10_str_nul_strip (pre post : List FieldTy) (n : Nat) (cs : List Nat)
    (vpre vpost : List Value) (bo : PyByteOrder)
    (hpre : validZip pre vpre = true) (hpost : validZip post vpost = true)
    (hscal : ∀ c ∈ cs, isScalar c = true)
    (hfit : (utf8Encode cs).length ≤ n) :
    (encode (pre ++ .tStr n :: post) (vpre ++ .vStr cs :: vpost) bo).bind
      (fun data => decode (pre ++ .tStr n :: post) data bo)
      = .ok (.vStruct (vpre ++ .vStr (rstripNulCP cs) :: vpost)) ∧
    (rstripNulCP cs = cs ↔ cs.getLastD 1 ≠ 0) := by
  obtain ⟨δ, datat, het, hlt, hpt, hdt, hdec⟩ := strFieldNul n cs bo hscal hfit
  obtain ⟨dpre, dpost, henc, hlpre, hlpost, hdecpre, hdecpost⟩ :=
    structMiddle pre post _ vpre vpost _ bo hpre hpost δ datat het hlt hpt
  refine ⟨?_, rstripNulCP_eq_self_iff cs⟩
  rw [henc]
  exact decodeMiddle_ok pre post _ bo dpre datat dpost vpre vpost _
    hlpre hdt hdecpre hdecpost hdec
    (middle_len pre post _ dpre datat dpost hlpre hdt hlpost)

theorem c10_str_nul_strip_witness :
    (∀ c ∈ [65, 0], isScalar c = true) ∧
    (utf8Encode [65, 0]).length ≤ 4 ∧
    ((encode [.tStr 4] [.vStr [65, 0]] .little).bind
        (fun data => decode [.tStr 4] data .little)
        = .ok (.vStruct [.vStr (rstripNulCP [65, 0])]) ∧
     (rstripNulCP [65, 0] = [65, 0] ↔ ([65, 0] : List Nat).getLastD 1 ≠ 0)) :=
  ⟨by decide, by decide, c10_str_nul_strip [] [] 4 [65, 0] [] [] .little
    (by simp [validZip]) (by simp [validZip]) (by decide) (by decide)⟩

end BStruct

namespace BStruct

/-- The integral value 62247072681100742952578 (23 significant digits, well
inside the 80-bit integer part): multiplying by `2 ^ 48` in the default
`Decimal` context needs 38 digits, so the product is rounded to 28
significant digits before truncation, and the round trip returns
6224707268110074295257799999 / 100000 instead of the original — refuting
"every integral value representable in the integer part round-trips
exactly". -/
theorem c8_i80f48_counterexample :
    (mkRat 62247072681100742952578 1).den = 1 ∧
    (encode [.tI80F48] [.vDec (mkRat 62247072681100742952578 1)] .little).bind
      (fun data => decode [.tI80F48] data .little)
      = .ok (.vStruct [.vDec (mkRat 6224707268110074295257799999 100000)]) ∧
    mkRat 6224707268110074295257799999 100000 ≠ mkRat 62247072681100742952578 1 := by
  refine ⟨by decide, ?_, by decide⟩
  have hm : truncQ (decMul (mkRat 62247072681100742952578 1)
      (mkRat 281474976710656 1)) = 17520993333219342959419391270000000000 := by
    decide
  have hb : intToBytes 16 PyByteOrder.little true 17520993333219342959419391270000000000
      = .ok [0, 252, 155, 146, 255, 255, 129, 6, 231, 227, 85, 148, 170, 107, 46, 13] := by
    decide
  have hfmt : structFormat [FieldTy.tI80F48] = [.fBytes 16] := by
    simp [structFormat, fmtOfF_tStruct, fmtOfF]
  have hencF : encF (.tStruct [.tI80F48])
      (.vStruct [.vDec (mkRat 62247072681100742952578 1)]) PyByteOrder.little []
      = .ok [.abytes [0, 252, 155, 146, 255, 255, 129, 6, 231, 227, 85, 148,
          170, 107, 46, 13]] := by
    simp [encF, encZip, encodeI80F48, hm, hb, -Rat.mkRat_one]
  have henc : encode [.tI80F48] [.vDec (mkRat 62247072681100742952578 1)] .little
      = .ok [0, 252, 155, 146, 255, 255, 129, 6, 231, 227, 85, 148, 170, 107, 46, 13] := by
    simp [encode, hencF, hfmt, structPack, packOne, -Rat.mkRat_one]
  have hiv : intFromBytes PyByteOrder.little true
      [0, 252, 155, 146, 255, 255, 129, 6, 231, 227, 85, 148, 170, 107, 46, 13]
      = 17520993333219342959419391270000000000 := by decide
  have hq : decDiv (mkRat (17520993333219342959419391270000000000 : Int) 1)
      (mkRat 281474976710656 1) = mkRat 6224707268110074295257799999 100000 := by
    decide
  have hdec : decode [.tI80F48]
      [0, 252, 155, 146, 255, 255, 129, 6, 231, 227, 85, 148, 170, 107, 46, 13] .little
      = .ok (.vStruct [.vDec (mkRat 6224707268110074295257799999 100000)]) := by
    simp [decode, structUnpack, hfmt, fmtSize, codeSize, unpackPieces, unpackOne,
      decF, decZip, decodeI80F48, hiv, hq, -Rat.mkRat_one]
  rw [henc]
  exact hdec

/-- C8 (amended): `decode` of a 16-byte fixed-point slot interprets it as a
signed 128-bit integer divided by `2 ^ 48` in the default `Decimal` context,
and `encode` multiplies by `2 ^ 48` in that context and truncates; a value
whose scaled truncation is in signed-128-bit range and survives the
28-significant-digit context arithmetic unchanged (in particular any value,
such as 1234, needing at most 28 digits when scaled) round-trips exactly. -/
theorem c8_i80f48_quantization (pre post : List FieldTy) (q : ℚ)
    (vpre vpost : List Value) (bo : PyByteOrder) (bs : List Nat)
    (hpre : validZip pre vpre = true) (hpost : validZip post vpost = true)
    (hv : validF .tI80F48 (.vDec q) = true)
    (hbs : bs.length = 16) :
    (encode (pre ++ .tI80F48 :: post) (vpre ++ .vDec q :: vpost) bo).bind
      (fun data => decode (pre ++ .tI80F48 :: post) data bo)
      = .ok (.vStruct (vpre ++ .vDec q :: vpost)) ∧
    decode [.tI80F48] bs bo
      = .ok (.vStruct [.vDec (decDiv (mkRat (intFromBytes bo true bs) 1)
          (mkRat (2 ^ 48) 1))]) := by
  constructor
  · have hvm := validF_middle pre post _ vpre vpost _ hpre hpost hv
    obtain ⟨data, he, -, hd⟩ := encode_decode_valid _ _ bo hvm
    rw [he]
    exact hd
  · have hfmt : structFormat [FieldTy.tI80F48] = [.fBytes 16] := by
      simp [structFormat, fmtOfF_tStruct, fmtOfF]
    simp [decode, structUnpack, hfmt, fmtSize, codeSize, unpackPieces, unpackOne,
      decF, decZip, decodeI80F48, hbs, List.take_of_length_le (le_of_eq hbs),
      -Rat.mkRat_one]

theorem c8_i80f48_quantization_witness :
    validF .tI80F48 (.vDec (mkRat 1234 1)) = true ∧
    (List.replicate 16 0).length = 16 ∧
    ((encode [.tI80F48] [.vDec (mkRat 1234 1)] .little).bind
        (fun data => decode [.tI80F48] data .little)
        = .ok (.vStruct [.vDec (mkRat 1234 1)]) ∧
     decode [.tI80F48] (List.replicate 16 0) .little
        = .ok (.vStruct [.vDec (decDiv
            (mkRat (intFromBytes .little true (List.replicate 16 0)) 1)
            (mkRat (2 ^ 48) 1))])) := by
  have hv : validF .tI80F48 (.vDec (mkRat 1234 1)) = true := by
    rw [validF]
    decide
  exact ⟨hv, by simp, c8_i80f48_quantization [] [] (mkRat 1234 1) [] [] .little
    (List.replicate 16 0) (by simp [validZip]) (by simp [validZip]) hv (by simp)⟩

end BStruct
